import Mathlib

/-! # Tapestry routing table

A verification development for `tapestry/tapestry/routingtable.go`: the
routing table of a Tapestry node with its operations `NewRoutingTable`,
`Add`, `Remove`, `GetLevel` and `GetNextHop`.

The table is a `DIGITS × BASE` grid of slots, each slot an ordered list of
node descriptors.  Go's fixed arrays `[DIGITS][BASE]*[]Node` are total
functions on the index types; an index that leaves the array (Go's run-time
fault "index out of range") makes an operation return `none`.

The ID arithmetic (`SharedPrefixLength`, `Closer`, `BetterChoice`, the
constants) lives in a file of the repository that is not part of the sources
at hand.  `SharedPrefixLength` and the constants are modelled from the
specification.  `Closer` and `BetterChoice` are parameters `closer` and
`betterChoice` of every operation that uses them, so that the results hold
for whatever the ID file implements; the definitions `Closer` and
`BetterChoice` below are the specification's reading and serve for the
concrete evaluations.  The routing engine `find_root` is not in the sources
either and is modelled from the specification on top of `GetNextHop`.
-/

namespace Tapestry

/-! ## Constants and identifiers -/

/-- Modelled from the spec: the constant `DIGITS`, the number of digits of
an ID (configuration: `DIGITS = 40`); its declaration is not in the
sources. -/
abbrev DIGITS : Nat := 40

/-- Modelled from the spec: the constant `BASE`, the size of the digit
alphabet (configuration: `BASE = 16`); its declaration is not in the
sources. -/
abbrev BASE : Nat := 16

/-- Modelled from the spec: the constant `SLOTSIZE`, the capacity of a slot
(configuration: `SLOTSIZE = 3`); its declaration is not in the sources.
`Add` itself writes the literals `2` (for `SLOTSIZE - 1`). -/
abbrev SLOTSIZE : Nat := 3

/-- Modelled from the spec: the type `Digit`, one digit in base `BASE`. -/
abbrev Digit := Fin BASE

/-- Modelled from the spec: the type `ID`, a fixed-width sequence of
`DIGITS` digits in base `BASE` (Go: `[DIGITS]Digit`). -/
structure ID where
  digits : List Digit
  len : digits.length = DIGITS
deriving DecidableEq

/-- The digit `id[i]` for an index inside the array. -/
def ID.get (id : ID) (i : Fin DIGITS) : Digit :=
  id.digits.get ⟨i.val, id.len.symm ▸ i.isLt⟩

/-- Modelled from the spec: the node descriptor, the immutable pair
`(ID, address)` (Go: `Node` with fields `Id` and `Address`). -/
structure Node where
  Id : ID
  Address : String
deriving DecidableEq

/-- Length of the longest common beginning of two digit lists. -/
def sharedDigits : List Digit → List Digit → Nat
  | x :: xs, y :: ys => if x = y then sharedDigits xs ys + 1 else 0
  | _, _ => 0

/-- Modelled from the spec: `SharedPrefixLength`, which is not in the
sources: "length of the longest common prefix in digits; range
`[0, DIGITS]`". -/
def SharedPrefixLength (a b : ID) : Nat :=
  sharedDigits a.digits b.digits

/-- Cyclic distance modulo `BASE` from the target's digit `t` to the digit
`x`: the number of steps from `t` up to `x` around the digit cycle. -/
def digitDist (t x : Digit) : Nat :=
  (x.val + BASE - t.val) % BASE

/-- Digit by digit comparison of `a` and `b` against the target: at the
first position where the distances to the target's digit differ the
smaller distance wins; on a tie the following digits are compared. -/
def closerDigits : List Digit → List Digit → List Digit → Bool
  | t :: ts, x :: xs, y :: ys =>
    if digitDist t x < digitDist t y then true
    else if digitDist t y < digitDist t x then false
    else closerDigits ts xs ys
  | _, _, _ => false

/-- Modelled from the spec: `Closer`, which is not in the sources:
"true iff `a` is closer to `target` than `b`, defined by: greater shared
prefix with `target` wins; on tie, the digit at the first differing
position closer (in cyclic distance modulo `BASE`) to `target`'s digit at
that position wins; on further tie, recursively compare subsequent
digits."  The cyclic distance is read as `digitDist`.  The operations of
the table take the comparison as a parameter; this definition instantiates
it in the concrete evaluations. -/
def Closer (target a b : ID) : Bool :=
  let la := SharedPrefixLength a target
  let lb := SharedPrefixLength b target
  if lb < la then true
  else if la < lb then false
  else closerDigits (target.digits.drop la) (a.digits.drop la) (b.digits.drop la)

/-! ## The routing table -/

/-- The routing table (Go: `RoutingTable`): the local node and the rows.
The field `localNode` is Go's `local`; the mutex has no state of its own
in a sequential run and is left out. -/
structure RoutingTable where
  localNode : Node
  rows : Fin DIGITS → Digit → List Node

/-- The assignment `t.rows[l][d] = &s` (as well as `*slot = s` through the
slot pointer). -/
def RoutingTable.setSlot (t : RoutingTable) (l : Fin DIGITS) (d : Digit)
    (s : List Node) : RoutingTable :=
  ⟨t.localNode, fun l1 d1 => if l1 = l ∧ d1 = d then s else t.rows l1 d1⟩

/-- Go `NewRoutingTable`: all slots empty, then the local node appended to
the slot `rows[i][local.Id[i]]` of every level `i`. -/
def NewRoutingTable (me : Node) : RoutingTable :=
  ⟨me, fun i j => if j = me.Id.get i then [] ++ [me] else []⟩

/-- One pass of the body of the inner sorting loop of `Add` at indices
`i` and `j`: the two entries are exchanged unless
`id2.Closer(first.Id, second.Id)`. -/
def sortInner (closer : ID → ID → ID → Bool) (id2 : ID) (i : Nat)
    (slot : List Node) (j : Nat) : List Node :=
  match slot[i]?, slot[j]? with
  | some first, some second =>
    if closer id2 first.Id second.Id then slot
    else (slot.set i second).set j first
  | _, _ => slot

/-- The sorting loops of `Add`:
`for i := 0; i < len-1; i++ { for j := i+1; j < len; j++ { ... } }`. -/
def sortSlot (closer : ID → ID → ID → Bool) (id2 : ID) (slot : List Node) :
    List Node :=
  (List.range (slot.length - 1)).foldl
    (fun s i => (List.range' (i + 1) (s.length - (i + 1))).foldl
      (sortInner closer id2 i) s) slot

/-- The loop of `Add` that looks for the ID in the slot: `added` starts
`true` and is set to `false` at every entry whose ID equals `id1`
(`big().Cmp(...) == 0` on IDs is equality of the digit arrays). -/
def notPresent (id1 : ID) (slot : List Node) : Bool :=
  slot.foldl (fun added e => if e.Id = id1 then false else added) true

/-- Go `RoutingTable.Add`.  The result is `none` when an index leaves its
array, and otherwise the table after the call with the two results
`added` and `previous`.  `previous` is the pointer `&((*slot)[2])` into
the slot: the value it yields is the content of element 2 of the slot
when `Add` returns. -/
def Add (closer : ID → ID → ID → Bool) (t : RoutingTable) (node : Node) :
    Option (RoutingTable × Bool × Option Node) :=
  let id1 := node.Id
  let id2 := t.localNode.Id
  let PreLen := SharedPrefixLength id1 id2
  if PreLen = DIGITS then some (t, false, none)
  else if h : PreLen < DIGITS then
    let l : Fin DIGITS := ⟨PreLen, h⟩
    let col := id1.get l
    let slot := t.rows l col
    if notPresent id1 slot then
      if slot.length ≤ 2 then
        some (t.setSlot l col (sortSlot closer id2 (slot ++ [node])), true, none)
      else
        match slot[2]? with
        | none => none
        | some last =>
          if closer id2 id1 last.Id then
            let sorted := sortSlot closer id2 (slot.set 2 node)
            some (t.setSlot l col sorted, true, sorted[2]?)
          else some (t, false, none)
    else some (t, false, none)
  else none

/-- The search loop of `Remove`: the first index `j` (counted from
`start`) whose entry has the ID `NodeId`. -/
def firstMatch (NodeId : ID) : List Node → Nat → Option Nat
  | [], _ => none
  | e :: rest, j => if e.Id = NodeId then some j else firstMatch NodeId rest (j + 1)

/-- The shifting loop of `Remove`:
`for i := j; i < len-1; i++ { slot[i] = slot[i+1] }`. -/
def shiftLeft (slot : List Node) (j : Nat) : List Node :=
  (List.range' j (slot.length - 1 - j)).foldl
    (fun s i => match s[i + 1]? with
      | some x => s.set i x
      | none => s) slot

/-- Go `RoutingTable.Remove`.  The result is `none` when an index leaves its
array (`NodeId[PreLen]` with `PreLen = DIGITS`), and otherwise the table
after the call with the result `wasRemoved`. -/
def Remove (t : RoutingTable) (node : Node) : Option (RoutingTable × Bool) :=
  let NodeId := node.Id
  let PreLen := SharedPrefixLength NodeId t.localNode.Id
  if h : PreLen < DIGITS then
    let l : Fin DIGITS := ⟨PreLen, h⟩
    let col := NodeId.get l
    let slot := t.rows l col
    match firstMatch NodeId slot 0 with
    | none => some (t, false)
    | some j =>
      if slot.length = 1 then some (t.setSlot l col [], false)
      else some (t.setSlot l col ((shiftLeft slot j).take (slot.length - 1)), true)
  else none

/-! ## Lookups in the routing table -/

/-- The value of a digit list as a number in base `BASE`, the most
significant digit first (Go: `big()`). -/
def bigOf (ds : List Digit) : Nat :=
  ds.foldl (fun acc d => acc * BASE + d.val) 0

/-- The distance between two numbers. -/
def natDist (x y : Nat) : Nat :=
  if x ≤ y then y - x else x - y

/-- Modelled from the spec: `BetterChoice`, which is not in the sources:
"like `closer` but used when `a` and `b` appear in the same routing-table
slot (same prefix with target at some level); reduces to numeric closeness
of the suffix interpreted as a big integer."  As for `closer` the greater
shared beginning with `target` wins; on a tie the suffix after it that is
numerically closer to the suffix of `target` wins.  `GetNextHop` takes the
comparison as a parameter; this definition instantiates it in the concrete
evaluations. -/
def BetterChoice (target a b : ID) : Bool :=
  let la := SharedPrefixLength a target
  let lb := SharedPrefixLength b target
  if lb < la then true
  else if la < lb then false
  else decide (natDist (bigOf (a.digits.drop la)) (bigOf (target.digits.drop la)) <
    natDist (bigOf (b.digits.drop la)) (bigOf (target.digits.drop la)))

/-- The body of the loop of `GetLevel` at the digit `i`: the first element of
the slot `rows[level][i]` is appended when the slot is not empty and the ID
of that element is not the local ID. -/
def levelStep (t : RoutingTable) (l : Fin DIGITS) (nodes : List Node) (i : Digit) :
    List Node :=
  match t.rows l i with
  | [] => nodes
  | first :: _ => if first.Id ≠ t.localNode.Id then nodes ++ [first] else nodes

/-- Go `RoutingTable.GetLevel`: the loop `for i := 0; i < BASE; i++` over the
slots of the level.  The result is `none` when `level` leaves the array. -/
def GetLevel (t : RoutingTable) (level : Nat) : Option (List Node) :=
  if h : level < DIGITS then
    some ((List.finRange BASE).foldl (levelStep t ⟨level, h⟩) [])
  else none

/-- The body of the scanning loop of `GetNextHop` at the digit `i`: `res` is
replaced by the first element `cur` of a non-empty slot when
`id.BetterChoice(cur.Id, res.Id)`. -/
def scanStep (betterChoice : ID → ID → ID → Bool) (t : RoutingTable) (id : ID)
    (l : Fin DIGITS) (res : Node) (i : Digit) : Node :=
  match t.rows l i with
  | [] => res
  | cur :: _ => if betterChoice id cur.Id res.Id then cur else res

/-- The scan of one level in `GetNextHop`: the loop
`for i := 0; i < BASE; i++` over the slots of the level `l`. -/
def scanLevel (betterChoice : ID → ID → ID → Bool) (t : RoutingTable) (id : ID)
    (l : Fin DIGITS) (res : Node) : Node :=
  (List.finRange BASE).foldl (scanStep betterChoice t id l) res

/-- The loop `for n < DIGITS` of `GetNextHop`, with `k = DIGITS - n` levels
left: the level `n` is scanned; when the selected node has the local ID the
loop goes on with `n + 1`, otherwise it breaks. -/
def hopLoop (betterChoice : ID → ID → ID → Bool) (t : RoutingTable) (id : ID) :
    Nat → Node → Node
  | 0, res => res
  | k + 1, res =>
    if h : DIGITS - (k + 1) < DIGITS then
      let res1 := scanLevel betterChoice t id ⟨DIGITS - (k + 1), h⟩ res
      if res1.Id = t.localNode.Id then hopLoop betterChoice t id k res1 else res1
    else res

/-- Go `RoutingTable.GetNextHop`: the scan starts at the level
`n = SharedPrefixLength(localId, id)` with `res = t.local`. -/
def GetNextHop (betterChoice : ID → ID → ID → Bool) (t : RoutingTable) (id : ID) : Node :=
  hopLoop betterChoice t id (DIGITS - SharedPrefixLength t.localNode.Id id) t.localNode

/-- What "greater shared prefix with `target` wins" asks of the comparison
`betterChoice`: an ID that shares more leading digits with the target is the
better choice, and a better choice never shares fewer. -/
structure PrefixFirst (betterChoice : ID → ID → ID → Bool) : Prop where
  longer : ∀ target a b : ID,
    SharedPrefixLength b target < SharedPrefixLength a target →
      betterChoice target a b = true
  notShorter : ∀ target a b : ID, betterChoice target a b = true →
    SharedPrefixLength b target ≤ SharedPrefixLength a target

/-- The first element of the slot `rows[l][d]` when the slot is not empty and
that element is not the local node (the specification of `get_level`). -/
def firstNonLocal (t : RoutingTable) (l : Fin DIGITS) (d : Digit) : Option Node :=
  match t.rows l d with
  | [] => none
  | first :: _ => if first ≠ t.localNode then some first else none

/-- The specification of `get_level`: "For each digit `d`, if `rows[l][d]` is
non-empty and its first element is not the local node, include that first
element.  Order is ascending digit." -/
def getLevelSpec (t : RoutingTable) (l : Fin DIGITS) : List Node :=
  (List.finRange BASE).filterMap (firstNonLocal t l)

/-- What the scan of `GetNextHop` needs of the comparison `betterChoice`: for
every target it is irreflexive and transitive. -/
structure StrictChoice (betterChoice : ID → ID → ID → Bool) : Prop where
  irrefl : ∀ target a : ID, betterChoice target a a = false
  trans : ∀ target a b c : ID, betterChoice target a b = true →
    betterChoice target b c = true → betterChoice target a c = true

/-! ## Runs of operations -/

/-- A call on the routing table. -/
inductive Op where
  | add (node : Node)
  | remove (node : Node)

/-- The table after one call, `none` when the call faults. -/
def step (closer : ID → ID → ID → Bool) (t : RoutingTable) : Op → Option RoutingTable
  | Op.add node => (Add closer t node).map Prod.fst
  | Op.remove node => (Remove t node).map Prod.fst

/-- The table after a sequence of calls, `none` when one of them faults. -/
def run (closer : ID → ID → ID → Bool) (t : RoutingTable) : List Op → Option RoutingTable
  | [] => some t
  | op :: ops => (step closer t op).bind (fun t1 => run closer t1 ops)

/-- The routing tables reachable from `NewRoutingTable me` by calls of `Add`
and `Remove` that return. -/
def Reachable (closer : ID → ID → ID → Bool) (me : Node) (t : RoutingTable) : Prop :=
  ∃ ops : List Op, run closer (NewRoutingTable me) ops = some t

/-- The ID whose first digits are `ds` and whose remaining digits are `0`
(the way the tests write IDs: `1225` for `1225000...0`). -/
def idOf (ds : List Digit) : ID :=
  ⟨(ds ++ List.replicate DIGITS 0).take DIGITS, by simp⟩

/-! ## Predicates of the proofs and concrete tables -/

/-- The slot is ordered by `closer` relative to `loc`: index 0 is the
closest. -/
def SlotSorted (closer : ID → ID → ID → Bool) (loc : ID) (s : List Node) : Prop :=
  s.Pairwise (fun x y => closer loc x.Id y.Id = true)

/-- The outcome of `Add`, branch by branch. -/
inductive AddOutcome (closer : ID → ID → ID → Bool) (t : RoutingTable) (node : Node) :
    RoutingTable × Bool × Option Node → Prop where
  | unchanged : AddOutcome closer t node (t, false, none)
  | room (l : Fin DIGITS) (hl : SharedPrefixLength node.Id t.localNode.Id = l.val)
      (hnp : ∀ e ∈ t.rows l (node.Id.get l), e.Id ≠ node.Id)
      (hlen : (t.rows l (node.Id.get l)).length ≤ 2) :
      AddOutcome closer t node
        (t.setSlot l (node.Id.get l)
          (sortSlot closer t.localNode.Id (t.rows l (node.Id.get l) ++ [node])), true, none)
  | evict (l : Fin DIGITS) (last : Node)
      (hl : SharedPrefixLength node.Id t.localNode.Id = l.val)
      (hnp : ∀ e ∈ t.rows l (node.Id.get l), e.Id ≠ node.Id)
      (hlen : 2 < (t.rows l (node.Id.get l)).length)
      (hlast : (t.rows l (node.Id.get l))[2]? = some last)
      (hc : closer t.localNode.Id node.Id last.Id = true) :
      AddOutcome closer t node
        (t.setSlot l (node.Id.get l)
          (sortSlot closer t.localNode.Id ((t.rows l (node.Id.get l)).set 2 node)), true,
          (sortSlot closer t.localNode.Id ((t.rows l (node.Id.get l)).set 2 node))[2]?)

/-- The outcome of a `Remove` that returns, branch by branch. -/
inductive RemoveOutcome (t : RoutingTable) (node : Node) : RoutingTable × Bool → Prop where
  | absent (l : Fin DIGITS) (hl : SharedPrefixLength node.Id t.localNode.Id = l.val)
      (hnp : ∀ e ∈ t.rows l (node.Id.get l), e.Id ≠ node.Id) :
      RemoveOutcome t node (t, false)
  | single (l : Fin DIGITS) (hl : SharedPrefixLength node.Id t.localNode.Id = l.val)
      (e : Node) (hslot : t.rows l (node.Id.get l) = [e]) (he : e.Id = node.Id) :
      RemoveOutcome t node (t.setSlot l (node.Id.get l) [], false)
  | found (l : Fin DIGITS) (hl : SharedPrefixLength node.Id t.localNode.Id = l.val)
      (j : Nat) (e : Node) (hj : (t.rows l (node.Id.get l))[j]? = some e)
      (he : e.Id = node.Id) (hlen : (t.rows l (node.Id.get l)).length ≠ 1) :
      RemoveOutcome t node
        (t.setSlot l (node.Id.get l) ((t.rows l (node.Id.get l)).eraseIdx j), true)

/-- The well-formedness of a routing table of the node `me`. -/
structure Inv (me : Node) (t : RoutingTable) : Prop where
  loc : t.localNode = me
  own : ∀ l : Fin DIGITS, t.rows l (me.Id.get l) = [me]
  placed : ∀ (l : Fin DIGITS) (d : Digit), d ≠ me.Id.get l → ∀ e ∈ t.rows l d,
    SharedPrefixLength e.Id me.Id = l.val ∧ e.Id.get l = d
  bound : ∀ (l : Fin DIGITS) (d : Digit), (t.rows l d).length ≤ SLOTSIZE
  nodup : ∀ (l : Fin DIGITS) (d : Digit), ((t.rows l d).map Node.Id).Nodup

/-- The IDs `a` and `b` belong to the same slot of the table of `loc`: they
share the same number of leading digits with `loc` and carry the same digit
right after. -/
def SameSlot (loc a b : ID) : Prop :=
  SharedPrefixLength a loc = SharedPrefixLength b loc ∧
    a.digits[SharedPrefixLength a loc]? = b.digits[SharedPrefixLength a loc]?

/-- What the sorting loops need of the comparison `closer`: among the IDs of
one slot it is total on distinct IDs and transitive. -/
structure SlotOrder (closer : ID → ID → ID → Bool) : Prop where
  total : ∀ loc a b : ID, SameSlot loc a b → a ≠ b →
    closer loc a b = true ∨ closer loc b a = true
  trans : ∀ loc a b c : ID, SameSlot loc a b → SameSlot loc b c →
    closer loc a b = true → closer loc b c = true → closer loc a c = true

/-- Every slot of the table is ordered by `closer` relative to the local
ID. -/
def Sorted (closer : ID → ID → ID → Bool) (t : RoutingTable) : Prop :=
  ∀ (l : Fin DIGITS) (d : Digit), SlotSorted closer t.localNode.Id (t.rows l d)

/-- The local node of the examples, with the ID `000...0`. -/
def exLocal : Node := ⟨idOf [], "local"⟩

/-- A node with the ID `1001000...0`. -/
def exA : Node := ⟨idOf [1, 0, 0, 1], "a"⟩

/-- A node with the ID `1002000...0`. -/
def exB : Node := ⟨idOf [1, 0, 0, 2], "b"⟩

/-- A node with the ID `1003000...0`. -/
def exC : Node := ⟨idOf [1, 0, 0, 3], "c"⟩

/-- A node with the ID `1000000...0`. -/
def exN : Node := ⟨idOf [1], "n"⟩

/-- The table of `exLocal` after the calls `Add(exA)`, `Add(exB)`,
`Add(exC)`. -/
def exTable : RoutingTable :=
  (run Closer (NewRoutingTable exLocal) [Op.add exA, Op.add exB, Op.add exC]).getD
    (NewRoutingTable exLocal)

/-- The table of `exLocal` after the call `Add(exN)`. -/
def exSingle : RoutingTable :=
  (run Closer (NewRoutingTable exLocal) [Op.add exN]).getD (NewRoutingTable exLocal)

/-- A target ID `1200...0` for the routing examples: the slot of its first
digit holds `exA` in `exHop`. -/
def exTargetA : ID := idOf [1, 2]

/-- A target ID `3000...0` for the routing examples. -/
def exTarget : ID := idOf [3]

/-- A node with the ID `4000...0`. -/
def exR : Node := ⟨idOf [4], "r"⟩

/-- The table of `exLocal` after the calls `Add(exR)`, `Add(exA)`. -/
def exHop : RoutingTable :=
  (run Closer (NewRoutingTable exLocal) [Op.add exR, Op.add exA]).getD
    (NewRoutingTable exLocal)

/-- The node `n` belongs to the slot `rows[l][d]` of the table of `me`: it
shares exactly `l` leading digits with `me` and has the digit `d` at
position `l`. -/
def belongsTo (me : Node) (l : Fin DIGITS) (d : Digit) (n : Node) : Bool :=
  decide (SharedPrefixLength n.Id me.Id = l.val ∧ n.Id.get l = d)

/-- The distinct IDs of the nodes of `ns` that belong to the slot
`rows[l][d]` of the table of `me`. -/
def addedIds (me : Node) (l : Fin DIGITS) (d : Digit) (ns : List Node) : List ID :=
  ((ns.filter (belongsTo me l d)).map Node.Id).dedup

/-- The slot `rows[l][d]` of `t` against the nodes `ns` added so far: its
entries are among `ns`; while it has room it holds every added ID that
belongs to it; and each of its entries is closer to the local ID than every
added node of the slot whose ID it does not hold. -/
structure Retained (closer : ID → ID → ID → Bool) (me : Node) (l : Fin DIGITS) (d : Digit)
    (t : RoutingTable) (ns : List Node) : Prop where
  among : ∀ e ∈ t.rows l d, e ∈ ns
  all : (t.rows l d).length < SLOTSIZE → ∀ n ∈ ns, belongsTo me l d n = true →
    ∃ e ∈ t.rows l d, e.Id = n.Id
  closest : ∀ e ∈ t.rows l d, ∀ n ∈ ns, belongsTo me l d n = true →
    (∀ x ∈ t.rows l d, x.Id ≠ n.Id) → closer me.Id e.Id n.Id = true

/-! ## The network and `find_root` -/

theorem sharedDigits_le (xs ys : List Digit) : sharedDigits xs ys ≤ xs.length := by
  induction xs generalizing ys with
  | nil => simp [sharedDigits]
  | cons x xs ih =>
    cases ys with
    | nil => simp [sharedDigits]
    | cons y ys =>
      simp only [sharedDigits, List.length_cons]
      split
      · exact Nat.succ_le_succ (ih ys)
      · exact Nat.zero_le _

theorem sharedDigits_self (xs : List Digit) : sharedDigits xs xs = xs.length := by
  induction xs with
  | nil => simp [sharedDigits]
  | cons x xs ih => simp [sharedDigits, ih]

theorem sharedDigits_eq_length (xs ys : List Digit) (hlen : xs.length = ys.length)
    (h : sharedDigits xs ys = xs.length) : xs = ys := by
  induction xs generalizing ys with
  | nil =>
    cases ys with
    | nil => rfl
    | cons y ys => simp at hlen
  | cons x xs ih =>
    cases ys with
    | nil => simp at hlen
    | cons y ys =>
      simp only [sharedDigits, List.length_cons] at h hlen
      by_cases hxy : x = y
      · rw [if_pos hxy] at h
        rw [hxy, ih ys (by omega) (by omega)]
      · rw [if_neg hxy] at h
        omega

theorem sharedDigits_get?_ne (xs ys : List Digit) (hlen : xs.length = ys.length)
    (h : sharedDigits xs ys < xs.length) :
    xs[sharedDigits xs ys]? ≠ ys[sharedDigits xs ys]? := by
  induction xs generalizing ys with
  | nil => simp at h
  | cons x xs ih =>
    cases ys with
    | nil => simp at hlen
    | cons y ys =>
      simp only [sharedDigits, List.length_cons] at h hlen ⊢
      by_cases hxy : x = y
      · rw [if_pos hxy] at h ⊢
        simpa using ih ys (by omega) (by omega)
      · rw [if_neg hxy]
        simpa using hxy

theorem SharedPrefixLength_le (a b : ID) : SharedPrefixLength a b ≤ DIGITS := by
  have h := sharedDigits_le a.digits b.digits
  rw [a.len] at h
  exact h

theorem SharedPrefixLength_self (a : ID) : SharedPrefixLength a a = DIGITS := by
  unfold SharedPrefixLength
  rw [sharedDigits_self, a.len]

theorem ID.ext_digits {a b : ID} (h : a.digits = b.digits) : a = b := by
  cases a; cases b; simp_all

theorem SharedPrefixLength_eq_DIGITS {a b : ID} (h : SharedPrefixLength a b = DIGITS) :
    a = b := by
  apply ID.ext_digits
  apply sharedDigits_eq_length _ _ (by rw [a.len, b.len])
  rw [a.len]
  exact h

theorem SharedPrefixLength_eq_DIGITS_iff (a b : ID) :
    SharedPrefixLength a b = DIGITS ↔ a = b :=
  ⟨SharedPrefixLength_eq_DIGITS, fun h => h ▸ SharedPrefixLength_self a⟩

theorem ID.get_eq_get? (a : ID) (i : Fin DIGITS) : a.digits[i.val]? = some (a.get i) := by
  unfold ID.get
  simp [List.getElem?_eq_getElem, a.len]

theorem SharedPrefixLength_get_ne (a b : ID) (h : SharedPrefixLength a b < DIGITS) :
    a.get ⟨SharedPrefixLength a b, h⟩ ≠ b.get ⟨SharedPrefixLength a b, h⟩ := by
  intro heq
  have hne := sharedDigits_get?_ne a.digits b.digits (by rw [a.len, b.len])
    (by rw [a.len]; exact h)
  apply hne
  have ha := ID.get_eq_get? a ⟨SharedPrefixLength a b, h⟩
  have hb := ID.get_eq_get? b ⟨SharedPrefixLength a b, h⟩
  simp only [SharedPrefixLength] at ha hb heq
  rw [ha, hb, heq]

theorem notPresent_false_acc (id1 : ID) (slot : List Node) :
    slot.foldl (fun added e => if e.Id = id1 then false else added) false = false := by
  induction slot with
  | nil => rfl
  | cons e rest ih =>
    simp only [List.foldl_cons]
    split <;> exact ih

theorem notPresent_iff (id1 : ID) (slot : List Node) :
    notPresent id1 slot = true ↔ ∀ e ∈ slot, e.Id ≠ id1 := by
  unfold notPresent
  induction slot with
  | nil => simp
  | cons e rest ih =>
    simp only [List.foldl_cons, List.mem_cons, forall_eq_or_imp]
    by_cases he : e.Id = id1
    · rw [if_pos he, notPresent_false_acc]
      simp [he]
    · rw [if_neg he, ih]
      simp [he]

/-! ## The sorting loops on a slot of at most three entries -/

theorem sortSlot_nil (closer : ID → ID → ID → Bool) (id2 : ID) :
    sortSlot closer id2 [] = [] := rfl

theorem sortSlot_one (closer : ID → ID → ID → Bool) (id2 : ID) (a : Node) :
    sortSlot closer id2 [a] = [a] := rfl

theorem sortSlot_two (closer : ID → ID → ID → Bool) (id2 : ID) (a b : Node) :
    sortSlot closer id2 [a, b] = if closer id2 a.Id b.Id then [a, b] else [b, a] := by
  simp only [sortSlot, sortInner, List.length_cons, List.length_nil, List.range, List.range.loop,
    List.range', List.foldl_cons, List.foldl_nil]
  split <;> simp_all

theorem sortSlot_three (closer : ID → ID → ID → Bool) (id2 : ID) (a b c : Node) :
    sortSlot closer id2 [a, b, c] =
      if closer id2 a.Id b.Id then
        if closer id2 a.Id c.Id then
          if closer id2 b.Id c.Id then [a, b, c] else [a, c, b]
        else
          if closer id2 b.Id a.Id then [c, b, a] else [c, a, b]
      else
        if closer id2 b.Id c.Id then
          if closer id2 a.Id c.Id then [b, a, c] else [b, c, a]
        else
          if closer id2 a.Id b.Id then [c, a, b] else [c, b, a] := by
  simp only [sortSlot, sortInner, List.length_cons, List.length_nil, List.range, List.range.loop,
    List.range', List.foldl_cons, List.foldl_nil]
  by_cases h1 : closer id2 a.Id b.Id = true <;> by_cases h2 : closer id2 a.Id c.Id = true <;>
    by_cases h3 : closer id2 b.Id c.Id = true <;> by_cases h4 : closer id2 b.Id a.Id = true <;>
    simp [h1, h2, h3, h4, sortInner]

theorem sortSlot_perm (closer : ID → ID → ID → Bool) (id2 : ID) :
    ∀ s : List Node, s.length ≤ 3 → (sortSlot closer id2 s).Perm s
  | [], _ => List.Perm.refl _
  | [a], _ => List.Perm.refl _
  | [a, b], _ => by
    rw [sortSlot_two]
    split
    · exact List.Perm.refl _
    · exact List.Perm.swap _ _ _
  | [a, b, c], _ => by
    rw [sortSlot_three]
    split_ifs <;> (simp [List.perm_iff_count, List.count_cons] <;> (intro x; omega))
  | _ :: _ :: _ :: _ :: _, h => by simp at h

theorem sortSlot_sorted (closer : ID → ID → ID → Bool) (id2 : ID) :
    ∀ s : List Node, s.length ≤ 3 →
      (∀ x ∈ s, ∀ y ∈ s, x.Id ≠ y.Id →
        closer id2 x.Id y.Id = true ∨ closer id2 y.Id x.Id = true) →
      (∀ x ∈ s, ∀ y ∈ s, ∀ z ∈ s, closer id2 x.Id y.Id = true →
        closer id2 y.Id z.Id = true → closer id2 x.Id z.Id = true) →
      (s.map Node.Id).Nodup → SlotSorted closer id2 (sortSlot closer id2 s)
  | [], _, _, _, _ => List.Pairwise.nil
  | [a], _, _, _, _ => by simp [sortSlot_one, SlotSorted]
  | [a, b], _, htot, _, hnd => by
    have hab : a.Id ≠ b.Id := by simpa using hnd
    have h := htot a (by simp) b (by simp) hab
    rw [sortSlot_two]
    by_cases h1 : closer id2 a.Id b.Id = true
    · simp [h1, SlotSorted]
    · have h2 : closer id2 b.Id a.Id = true := by
        rcases h with h | h
        · exact absurd h h1
        · exact h
      simp [h1, SlotSorted, h2]
  | [a, b, c], _, htot, htr, hnd => by
    have hne : a.Id ≠ b.Id ∧ a.Id ≠ c.Id ∧ b.Id ≠ c.Id := by
      simp only [List.map_cons, List.map_nil, List.nodup_cons, List.mem_cons,
        List.mem_singleton, not_or] at hnd
      exact ⟨hnd.1.1, hnd.1.2.1, hnd.2.1.1⟩
    have hab := htot a (by simp) b (by simp) hne.1
    have hac := htot a (by simp) c (by simp) hne.2.1
    have hbc := htot b (by simp) c (by simp) hne.2.2
    have t1 := htr a (by simp) b (by simp) c (by simp)
    have t2 := htr a (by simp) c (by simp) b (by simp)
    have t3 := htr b (by simp) a (by simp) c (by simp)
    have t4 := htr b (by simp) c (by simp) a (by simp)
    have t5 := htr c (by simp) a (by simp) b (by simp)
    have t6 := htr c (by simp) b (by simp) a (by simp)
    rw [sortSlot_three]
    unfold SlotSorted
    clear htot htr hnd
    by_cases h1 : closer id2 a.Id b.Id = true <;> by_cases h2 : closer id2 a.Id c.Id = true <;>
      by_cases h3 : closer id2 b.Id c.Id = true <;> by_cases h4 : closer id2 b.Id a.Id = true <;>
      simp only [h1, h2, h3, h4, if_true, if_false, List.pairwise_cons, List.mem_cons,
        List.mem_singleton, forall_eq_or_imp, forall_eq, List.Pairwise.nil, and_true,
        List.not_mem_nil, false_implies, implies_true] <;>
      simp_all
  | _ :: _ :: _ :: _ :: _, h, _, _, _ => by simp at h

/-! ## The loops of `Remove` -/

theorem firstMatch_none (NodeId : ID) (slot : List Node) (k : Nat) :
    firstMatch NodeId slot k = none ↔ ∀ e ∈ slot, e.Id ≠ NodeId := by
  induction slot generalizing k with
  | nil => simp [firstMatch]
  | cons e rest ih =>
    simp only [firstMatch, List.mem_cons, forall_eq_or_imp]
    by_cases he : e.Id = NodeId
    · simp [he]
    · simp [he, ih]

theorem firstMatch_some (NodeId : ID) (slot : List Node) (k j : Nat)
    (h : firstMatch NodeId slot k = some j) :
    k ≤ j ∧ ∃ e, slot[j - k]? = some e ∧ e.Id = NodeId := by
  induction slot generalizing k with
  | nil => simp [firstMatch] at h
  | cons e rest ih =>
    simp only [firstMatch] at h
    by_cases he : e.Id = NodeId
    · rw [if_pos he] at h
      cases h
      exact ⟨Nat.le_refl _, e, by simp, he⟩
    · rw [if_neg he] at h
      obtain ⟨hk, x, hx, hxid⟩ := ih (k + 1) h
      refine ⟨by omega, x, ?_, hxid⟩
      have : j - k = (j - (k + 1)) + 1 := by omega
      rw [this]
      simpa using hx

theorem shiftFold_length (slot : List Node) (is : List Nat) :
    (is.foldl (fun s i => match s[i + 1]? with
      | some x => s.set i x
      | none => s) slot).length = slot.length := by
  induction is generalizing slot with
  | nil => rfl
  | cons i is ih =>
    simp only [List.foldl_cons]
    rw [ih]
    split <;> simp

theorem shiftFold_getElem? (slot : List Node) (j n : Nat) (hn : j + n + 1 ≤ slot.length) (k : Nat) :
    ((List.range' j n).foldl (fun s i => match s[i + 1]? with
      | some x => s.set i x
      | none => s) slot)[k]? =
      if j ≤ k ∧ k < j + n then slot[k + 1]? else slot[k]? := by
  induction n generalizing k with
  | zero =>
    have : ¬ (j ≤ k ∧ k < j) := by omega
    simp [this]
  | succ n ih =>
    rw [List.range'_concat, List.foldl_append]
    simp only [List.foldl_cons, List.foldl_nil, Nat.one_mul]
    have hs := fun k => ih (by omega) k
    have hlen := shiftFold_length slot (List.range' j n)
    have hnext : j + n + 1 < slot.length := by omega
    have h1 : (List.foldl (fun s i => match s[i + 1]? with
        | some x => s.set i x
        | none => s) slot (List.range' j n))[j + n + 1]? = some (slot.get ⟨j + n + 1, hnext⟩) := by
      rw [hs]
      have : ¬ (j ≤ j + n + 1 ∧ j + n + 1 < j + n) := by omega
      rw [if_neg this, List.getElem?_eq_getElem hnext]
      rfl
    rw [h1]
    simp only
    rw [List.getElem?_set, hlen]
    by_cases hk : j + n = k
    · subst hk
      have h2 : j + n < slot.length := by omega
      have h3 : j ≤ j + n ∧ j + n < j + (n + 1) := by omega
      rw [if_pos rfl, if_pos h2, if_pos h3, List.getElem?_eq_getElem hnext]
      rfl
    · rw [if_neg hk, hs]
      by_cases hc : j ≤ k ∧ k < j + n
      · have h3 : j ≤ k ∧ k < j + (n + 1) := by omega
        rw [if_pos hc, if_pos h3]
      · have h3 : ¬ (j ≤ k ∧ k < j + (n + 1)) := by omega
        rw [if_neg hc, if_neg h3]

theorem shiftLeft_take (slot : List Node) (j : Nat) (hj : j < slot.length) :
    (shiftLeft slot j).take (slot.length - 1) = slot.eraseIdx j := by
  apply List.ext_getElem?
  intro k
  unfold shiftLeft
  rw [List.getElem?_take, List.getElem?_eraseIdx, shiftFold_getElem? slot j _ (by omega)]
  by_cases hk : k < slot.length - 1
  · rw [if_pos hk]
    by_cases hkj : k < j
    · have : ¬ (j ≤ k ∧ k < j + (slot.length - 1 - j)) := by omega
      rw [if_neg this, if_pos hkj]
    · have : j ≤ k ∧ k < j + (slot.length - 1 - j) := by omega
      rw [if_pos this, if_neg hkj]
  · have hkj : ¬ k < j := by omega
    rw [if_neg hk, if_neg hkj]
    symm
    apply List.getElem?_eq_none
    omega

/-! ## The branches of `Add` -/

theorem Add_local (closer : ID → ID → ID → Bool) (t : RoutingTable) (node : Node)
    (h : SharedPrefixLength node.Id t.localNode.Id = DIGITS) :
    Add closer t node = some (t, false, none) := by
  simp [Add, h]

theorem Add_present (closer : ID → ID → ID → Bool) (t : RoutingTable) (node : Node)
    (l : Fin DIGITS) (hl : SharedPrefixLength node.Id t.localNode.Id = l.val)
    (hp : ∃ e ∈ t.rows l (node.Id.get l), e.Id = node.Id) :
    Add closer t node = some (t, false, none) := by
  obtain ⟨lv, hlv⟩ := l
  simp only at hl
  subst hl
  have hnp : notPresent node.Id (t.rows ⟨_, hlv⟩ (node.Id.get ⟨_, hlv⟩)) = false := by
    rw [Bool.eq_false_iff]
    intro hcon
    rw [notPresent_iff] at hcon
    obtain ⟨e, he, heq⟩ := hp
    exact hcon e he heq
  have hne : ¬ SharedPrefixLength node.Id t.localNode.Id = DIGITS := by omega
  simp only [Add, if_neg hne, dif_pos hlv, hnp]
  simp

theorem Add_room (closer : ID → ID → ID → Bool) (t : RoutingTable) (node : Node)
    (l : Fin DIGITS) (hl : SharedPrefixLength node.Id t.localNode.Id = l.val)
    (hnp : ∀ e ∈ t.rows l (node.Id.get l), e.Id ≠ node.Id)
    (hlen : (t.rows l (node.Id.get l)).length ≤ 2) :
    Add closer t node =
      some (t.setSlot l (node.Id.get l)
        (sortSlot closer t.localNode.Id (t.rows l (node.Id.get l) ++ [node])), true, none) := by
  obtain ⟨lv, hlv⟩ := l
  simp only at hl
  subst hl
  have hnp1 := (notPresent_iff _ _).mpr hnp
  have hne : ¬ SharedPrefixLength node.Id t.localNode.Id = DIGITS := by omega
  simp only [Add, if_neg hne, dif_pos hlv, hnp1, if_pos hlen]
  simp

theorem Add_evict (closer : ID → ID → ID → Bool) (t : RoutingTable) (node last : Node)
    (l : Fin DIGITS) (hl : SharedPrefixLength node.Id t.localNode.Id = l.val)
    (hnp : ∀ e ∈ t.rows l (node.Id.get l), e.Id ≠ node.Id)
    (hlen : 2 < (t.rows l (node.Id.get l)).length)
    (hlast : (t.rows l (node.Id.get l))[2]? = some last)
    (hc : closer t.localNode.Id node.Id last.Id = true) :
    Add closer t node =
      some (t.setSlot l (node.Id.get l)
        (sortSlot closer t.localNode.Id ((t.rows l (node.Id.get l)).set 2 node)), true,
        (sortSlot closer t.localNode.Id ((t.rows l (node.Id.get l)).set 2 node))[2]?) := by
  obtain ⟨lv, hlv⟩ := l
  simp only at hl
  subst hl
  have hnp1 := (notPresent_iff _ _).mpr hnp
  have hne : ¬ SharedPrefixLength node.Id t.localNode.Id = DIGITS := by omega
  have hlen1 : ¬ (t.rows ⟨_, hlv⟩ (node.Id.get ⟨_, hlv⟩)).length ≤ 2 := by omega
  simp only [Add, if_neg hne, dif_pos hlv, hnp1, if_neg hlen1, hlast, hc]
  simp

theorem Add_far (closer : ID → ID → ID → Bool) (t : RoutingTable) (node last : Node)
    (l : Fin DIGITS) (hl : SharedPrefixLength node.Id t.localNode.Id = l.val)
    (hlen : 2 < (t.rows l (node.Id.get l)).length)
    (hlast : (t.rows l (node.Id.get l))[2]? = some last)
    (hc : closer t.localNode.Id node.Id last.Id = false) :
    Add closer t node = some (t, false, none) := by
  by_cases hp : ∃ e ∈ t.rows l (node.Id.get l), e.Id = node.Id
  · exact Add_present closer t node l hl hp
  · have hnp : ∀ e ∈ t.rows l (node.Id.get l), e.Id ≠ node.Id := by
      intro e he heq
      exact hp ⟨e, he, heq⟩
    obtain ⟨lv, hlv⟩ := l
    simp only at hl
    subst hl
    have hnp1 := (notPresent_iff _ _).mpr hnp
    have hne : ¬ SharedPrefixLength node.Id t.localNode.Id = DIGITS := by omega
    have hlen1 : ¬ (t.rows ⟨_, hlv⟩ (node.Id.get ⟨_, hlv⟩)).length ≤ 2 := by omega
    simp only [Add, if_neg hne, dif_pos hlv, hnp1, if_neg hlen1, hlast, hc]
    simp

theorem Add_outcome (closer : ID → ID → ID → Bool) (t : RoutingTable) (node : Node) :
    ∃ r, Add closer t node = some r ∧ AddOutcome closer t node r := by
  by_cases hd : SharedPrefixLength node.Id t.localNode.Id = DIGITS
  · exact ⟨_, Add_local closer t node hd, AddOutcome.unchanged⟩
  · have hlt : SharedPrefixLength node.Id t.localNode.Id < DIGITS :=
      lt_of_le_of_ne (SharedPrefixLength_le _ _) hd
    let l : Fin DIGITS := ⟨_, hlt⟩
    have hl : SharedPrefixLength node.Id t.localNode.Id = l.val := rfl
    by_cases hp : ∃ e ∈ t.rows l (node.Id.get l), e.Id = node.Id
    · exact ⟨_, Add_present closer t node l hl hp, AddOutcome.unchanged⟩
    · have hnp : ∀ e ∈ t.rows l (node.Id.get l), e.Id ≠ node.Id := by
        intro e he heq
        exact hp ⟨e, he, heq⟩
      by_cases hlen : (t.rows l (node.Id.get l)).length ≤ 2
      · exact ⟨_, Add_room closer t node l hl hnp hlen, AddOutcome.room l hl hnp hlen⟩
      · have hlen2 : 2 < (t.rows l (node.Id.get l)).length := by omega
        have hlast : (t.rows l (node.Id.get l))[2]? =
            some ((t.rows l (node.Id.get l)).get ⟨2, hlen2⟩) := by
          rw [List.getElem?_eq_getElem hlen2]
          rfl
        cases hc : closer t.localNode.Id node.Id
            ((t.rows l (node.Id.get l)).get ⟨2, hlen2⟩).Id
        · exact ⟨_, Add_far closer t node _ l hl hlen2 hlast hc, AddOutcome.unchanged⟩
        · exact ⟨_, Add_evict closer t node _ l hl hnp hlen2 hlast hc,
            AddOutcome.evict l _ hl hnp hlen2 hlast hc⟩

theorem Add_inv (closer : ID → ID → ID → Bool) (t : RoutingTable) (node : Node)
    (r : RoutingTable × Bool × Option Node) (h : Add closer t node = some r) :
    AddOutcome closer t node r := by
  obtain ⟨r1, h1, ho⟩ := Add_outcome closer t node
  rw [h1] at h
  cases h
  exact ho

/-! ## The branches of `Remove` -/

theorem Remove_local (t : RoutingTable) (node : Node)
    (h : SharedPrefixLength node.Id t.localNode.Id = DIGITS) : Remove t node = none := by
  simp [Remove, h]

theorem Remove_absent (t : RoutingTable) (node : Node)
    (l : Fin DIGITS) (hl : SharedPrefixLength node.Id t.localNode.Id = l.val)
    (hnp : ∀ e ∈ t.rows l (node.Id.get l), e.Id ≠ node.Id) :
    Remove t node = some (t, false) := by
  obtain ⟨lv, hlv⟩ := l
  simp only at hl
  subst hl
  have hf := (firstMatch_none node.Id _ 0).mpr hnp
  simp only [Remove, dif_pos hlv, hf]

theorem Remove_single (t : RoutingTable) (node : Node)
    (l : Fin DIGITS) (hl : SharedPrefixLength node.Id t.localNode.Id = l.val) (j : Nat)
    (hj : firstMatch node.Id (t.rows l (node.Id.get l)) 0 = some j)
    (hlen : (t.rows l (node.Id.get l)).length = 1) :
    Remove t node = some (t.setSlot l (node.Id.get l) [], false) := by
  obtain ⟨lv, hlv⟩ := l
  simp only at hl
  subst hl
  simp only [Remove, dif_pos hlv, hj, if_pos hlen]

theorem Remove_found (t : RoutingTable) (node : Node)
    (l : Fin DIGITS) (hl : SharedPrefixLength node.Id t.localNode.Id = l.val) (j : Nat)
    (hj : firstMatch node.Id (t.rows l (node.Id.get l)) 0 = some j)
    (hlen : (t.rows l (node.Id.get l)).length ≠ 1) :
    Remove t node =
      some (t.setSlot l (node.Id.get l) ((t.rows l (node.Id.get l)).eraseIdx j), true) := by
  have hjlt : j < (t.rows l (node.Id.get l)).length := by
    obtain ⟨_, e, he, _⟩ := firstMatch_some _ _ _ _ hj
    simp only [Nat.sub_zero] at he
    by_contra hcon
    rw [List.getElem?_eq_none (by omega)] at he
    cases he
  rw [← shiftLeft_take _ _ hjlt]
  obtain ⟨lv, hlv⟩ := l
  simp only at hl
  subst hl
  simp only [Remove, dif_pos hlv, hj, if_neg hlen]

theorem Remove_outcome (t : RoutingTable) (node : Node)
    (hd : SharedPrefixLength node.Id t.localNode.Id ≠ DIGITS) :
    ∃ r, Remove t node = some r ∧ RemoveOutcome t node r := by
  have hlt : SharedPrefixLength node.Id t.localNode.Id < DIGITS :=
    lt_of_le_of_ne (SharedPrefixLength_le _ _) hd
  let l : Fin DIGITS := ⟨_, hlt⟩
  have hl : SharedPrefixLength node.Id t.localNode.Id = l.val := rfl
  cases hf : firstMatch node.Id (t.rows l (node.Id.get l)) 0 with
  | none =>
    have hnp := (firstMatch_none _ _ _).mp hf
    exact ⟨_, Remove_absent t node l hl hnp, RemoveOutcome.absent l hl hnp⟩
  | some j =>
    obtain ⟨_, e, he, heid⟩ := firstMatch_some _ _ _ _ hf
    simp only [Nat.sub_zero] at he
    by_cases hlen : (t.rows l (node.Id.get l)).length = 1
    · refine ⟨_, Remove_single t node l hl j hf hlen, RemoveOutcome.single l hl e ?_ heid⟩
      match hs : t.rows l (node.Id.get l), hlen with
      | [x], _ =>
        rw [hs] at he
        cases j with
        | zero => simp at he; rw [he]
        | succ j => simp at he
    · exact ⟨_, Remove_found t node l hl j hf hlen, RemoveOutcome.found l hl j e he heid hlen⟩

theorem Remove_inv (t : RoutingTable) (node : Node) (r : RoutingTable × Bool)
    (h : Remove t node = some r) : RemoveOutcome t node r := by
  by_cases hd : SharedPrefixLength node.Id t.localNode.Id = DIGITS
  · rw [Remove_local t node hd] at h
    cases h
  · obtain ⟨r1, h1, ho⟩ := Remove_outcome t node hd
    rw [h1] at h
    cases h
    exact ho

/-! ## Invariants of the reachable tables -/

theorem setSlot_rows_same (t : RoutingTable) (l : Fin DIGITS) (d : Digit) (s : List Node) :
    (t.setSlot l d s).rows l d = s := by
  simp [RoutingTable.setSlot]

theorem setSlot_rows_other (t : RoutingTable) (l : Fin DIGITS) (d : Digit) (s : List Node)
    (l1 : Fin DIGITS) (d1 : Digit) (h : ¬ (l1 = l ∧ d1 = d)) :
    (t.setSlot l d s).rows l1 d1 = t.rows l1 d1 := by
  simp only [RoutingTable.setSlot]
  rw [if_neg h]

theorem setSlot_localNode (t : RoutingTable) (l : Fin DIGITS) (d : Digit) (s : List Node) :
    (t.setSlot l d s).localNode = t.localNode := rfl

theorem Inv_new (me : Node) : Inv me (NewRoutingTable me) where
  loc := rfl
  own := by intro l; simp [NewRoutingTable]
  placed := by
    intro l d hd e he
    simp [NewRoutingTable, hd] at he
  bound := by
    intro l d
    simp only [NewRoutingTable]
    split <;> simp
  nodup := by
    intro l d
    simp only [NewRoutingTable]
    split <;> simp

theorem Inv_setSlot (me : Node) (t : RoutingTable) (hi : Inv me t) (l : Fin DIGITS)
    (d : Digit) (s : List Node) (hd : d ≠ me.Id.get l)
    (hpl : ∀ e ∈ s, SharedPrefixLength e.Id me.Id = l.val ∧ e.Id.get l = d)
    (hb : s.length ≤ SLOTSIZE) (hn : (s.map Node.Id).Nodup) : Inv me (t.setSlot l d s) where
  loc := hi.loc
  own := by
    intro l1
    rw [setSlot_rows_other]
    · exact hi.own l1
    · rintro ⟨h1, h2⟩
      subst h1
      exact hd h2.symm
  placed := by
    intro l1 d1 hd1 e he
    by_cases hc : l1 = l ∧ d1 = d
    · obtain ⟨h1, h2⟩ := hc
      subst h1 h2
      rw [setSlot_rows_same] at he
      exact hpl e he
    · rw [setSlot_rows_other _ _ _ _ _ _ hc] at he
      exact hi.placed l1 d1 hd1 e he
  bound := by
    intro l1 d1
    by_cases hc : l1 = l ∧ d1 = d
    · obtain ⟨h1, h2⟩ := hc
      subst h1 h2
      rw [setSlot_rows_same]
      exact hb
    · rw [setSlot_rows_other _ _ _ _ _ _ hc]
      exact hi.bound l1 d1
  nodup := by
    intro l1 d1
    by_cases hc : l1 = l ∧ d1 = d
    · obtain ⟨h1, h2⟩ := hc
      subst h1 h2
      rw [setSlot_rows_same]
      exact hn
    · rw [setSlot_rows_other _ _ _ _ _ _ hc]
      exact hi.nodup l1 d1

theorem target_ne_own (me : Node) (node : Node) (l : Fin DIGITS)
    (hl : SharedPrefixLength node.Id me.Id = l.val) : node.Id.get l ≠ me.Id.get l := by
  obtain ⟨lv, hlv⟩ := l
  simp only at hl
  subst hl
  exact SharedPrefixLength_get_ne node.Id me.Id hlv

theorem Inv_Add (closer : ID → ID → ID → Bool) (me : Node) (t : RoutingTable) (hi : Inv me t)
    (node : Node) (r : RoutingTable × Bool × Option Node) (h : Add closer t node = some r) :
    Inv me r.1 := by
  have ho := Add_inv closer t node r h
  cases ho with
  | unchanged => exact hi
  | room l hl hnp hlen =>
    rw [hi.loc] at hl
    have hd := target_ne_own me node l hl
    have hperm := sortSlot_perm closer t.localNode.Id (t.rows l (node.Id.get l) ++ [node])
      (by simp; omega)
    apply Inv_setSlot me t hi l _ _ hd
    · intro e he
      have he1 := hperm.mem_iff.mp he
      rcases List.mem_append.mp he1 with he2 | he2
      · exact hi.placed l _ hd e he2
      · simp only [List.mem_singleton] at he2
        subst he2
        exact ⟨hl, rfl⟩
    · rw [hperm.length_eq]
      simp only [List.length_append, List.length_singleton]
      show _ ≤ 3
      omega
    · rw [(hperm.map Node.Id).nodup_iff]
      simp only [List.map_append, List.map_cons, List.map_nil]
      rw [List.nodup_append]
      refine ⟨hi.nodup l _, by simp, ?_⟩
      intro a ha hb
      simp only [List.mem_singleton] at hb
      subst hb
      obtain ⟨e, he, heq⟩ := List.mem_map.mp ha
      exact hnp e he heq
  | evict l last hl hnp hlen hlast hc =>
    rw [hi.loc] at hl
    have hd := target_ne_own me node l hl
    have hb := hi.bound l (node.Id.get l)
    have hnd := hi.nodup l (node.Id.get l)
    have hpl := hi.placed l (node.Id.get l) hd
    match hs : t.rows l (node.Id.get l), hlen, hb with
    | [a, b, c], _, _ =>
      rw [hs] at hnp hnd hpl
      have hperm := sortSlot_perm closer t.localNode.Id ([a, b, c].set 2 node) (by simp)
      apply Inv_setSlot me t hi l _ _ hd
      · intro e he
        have he1 := hperm.mem_iff.mp he
        simp only [List.set_cons_succ, List.set_cons_zero, List.mem_cons, List.mem_singleton,
          List.not_mem_nil, or_false] at he1
        rcases he1 with he2 | he2 | he2
        · exact hpl e (by simp [he2])
        · exact hpl e (by simp [he2])
        · subst he2
          exact ⟨hl, rfl⟩
      · rw [hperm.length_eq]
        simp
      · rw [(hperm.map Node.Id).nodup_iff]
        have h1 := hnp a (by simp)
        have h2 := hnp b (by simp)
        simp only [List.map_cons, List.map_nil, List.nodup_cons, List.mem_cons,
          List.mem_singleton, List.not_mem_nil, or_false, not_or, not_false_eq_true,
          List.nodup_nil, and_true, List.set_cons_succ, List.set_cons_zero] at hnd ⊢
        exact ⟨⟨hnd.1.1, h1⟩, h2⟩

theorem Inv_Remove (me : Node) (t : RoutingTable) (hi : Inv me t)
    (node : Node) (r : RoutingTable × Bool) (h : Remove t node = some r) :
    Inv me r.1 := by
  have ho := Remove_inv t node r h
  cases ho with
  | absent l hl hnp => exact hi
  | single l hl e hslot he =>
    rw [hi.loc] at hl
    exact Inv_setSlot me t hi l _ _ (target_ne_own me node l hl) (by simp) (by simp) (by simp)
  | found l hl j e hj he hlen =>
    rw [hi.loc] at hl
    have hd := target_ne_own me node l hl
    have hsub := List.eraseIdx_sublist (t.rows l (node.Id.get l)) j
    apply Inv_setSlot me t hi l _ _ hd
    · intro x hx
      exact hi.placed l _ hd x (hsub.subset hx)
    · exact le_trans hsub.length_le (hi.bound l _)
    · exact (hi.nodup l _).sublist (hsub.map Node.Id)

theorem Inv_step (closer : ID → ID → ID → Bool) (me : Node) (t t1 : RoutingTable)
    (hi : Inv me t) (op : Op) (h : step closer t op = some t1) : Inv me t1 := by
  cases op with
  | add node =>
    simp only [step, Option.map_eq_some'] at h
    obtain ⟨r, hr, rfl⟩ := h
    exact Inv_Add closer me t hi node r hr
  | remove node =>
    simp only [step, Option.map_eq_some'] at h
    obtain ⟨r, hr, rfl⟩ := h
    exact Inv_Remove me t hi node r hr

theorem Inv_run (closer : ID → ID → ID → Bool) (me : Node) (ops : List Op) :
    ∀ (t t1 : RoutingTable), Inv me t → run closer t ops = some t1 → Inv me t1 := by
  induction ops with
  | nil =>
    intro t t1 hi h
    simp only [run, Option.some.injEq] at h
    exact h ▸ hi
  | cons op ops ih =>
    intro t t1 hi h
    simp only [run, Option.bind_eq_some] at h
    obtain ⟨t2, h2, h3⟩ := h
    exact ih t2 t1 (Inv_step closer me t t2 hi op h2) h3

theorem Inv_reachable (closer : ID → ID → ID → Bool) (me : Node) (t : RoutingTable)
    (h : Reachable closer me t) : Inv me t := by
  obtain ⟨ops, hops⟩ := h
  exact Inv_run closer me ops _ t (Inv_new me) hops

/-! ## Order inside the slots -/

theorem sameSlot_of_placed (loc a b : ID) (l : Fin DIGITS) (d : Digit)
    (ha : SharedPrefixLength a loc = l.val ∧ a.get l = d)
    (hb : SharedPrefixLength b loc = l.val ∧ b.get l = d) : SameSlot loc a b := by
  refine ⟨by rw [ha.1, hb.1], ?_⟩
  rw [ha.1, ID.get_eq_get?, ID.get_eq_get?, ha.2, hb.2]

theorem sortSlot_sorted_placed (closer : ID → ID → ID → Bool) (ho : SlotOrder closer)
    (loc : ID) (l : Fin DIGITS) (d : Digit) (s : List Node) (hlen : s.length ≤ 3)
    (hpl : ∀ e ∈ s, SharedPrefixLength e.Id loc = l.val ∧ e.Id.get l = d)
    (hnd : (s.map Node.Id).Nodup) : SlotSorted closer loc (sortSlot closer loc s) := by
  apply sortSlot_sorted closer loc s hlen _ _ hnd
  · intro x hx y hy hxy
    exact ho.total loc x.Id y.Id (sameSlot_of_placed loc _ _ l d (hpl x hx) (hpl y hy)) hxy
  · intro x hx y hy z hz
    exact ho.trans loc x.Id y.Id z.Id (sameSlot_of_placed loc _ _ l d (hpl x hx) (hpl y hy))
      (sameSlot_of_placed loc _ _ l d (hpl y hy) (hpl z hz))

theorem Sorted_new (closer : ID → ID → ID → Bool) (me : Node) :
    Sorted closer (NewRoutingTable me) := by
  intro l d
  simp only [NewRoutingTable, SlotSorted]
  split <;> simp

theorem Sorted_setSlot (closer : ID → ID → ID → Bool) (t : RoutingTable)
    (hs : Sorted closer t) (l : Fin DIGITS) (d : Digit) (s : List Node)
    (h : SlotSorted closer t.localNode.Id s) : Sorted closer (t.setSlot l d s) := by
  intro l1 d1
  rw [setSlot_localNode]
  by_cases hc : l1 = l ∧ d1 = d
  · obtain ⟨h1, h2⟩ := hc
    subst h1 h2
    rw [setSlot_rows_same]
    exact h
  · rw [setSlot_rows_other _ _ _ _ _ _ hc]
    exact hs l1 d1

theorem Sorted_Add (closer : ID → ID → ID → Bool) (ho : SlotOrder closer) (me : Node)
    (t : RoutingTable) (hi : Inv me t) (hs : Sorted closer t)
    (node : Node) (r : RoutingTable × Bool × Option Node) (h : Add closer t node = some r) :
    Sorted closer r.1 := by
  have hinv := Inv_Add closer me t hi node r h
  have hres := Add_inv closer t node r h
  cases hres with
  | unchanged => exact hs
  | room l hl hnp hlen =>
    apply Sorted_setSlot closer t hs
    have hl1 := hl
    rw [hi.loc] at hl1
    have hd := target_ne_own me node l hl1
    have hperm := sortSlot_perm closer t.localNode.Id (t.rows l (node.Id.get l) ++ [node])
      (by simp; omega)
    have hnd := hinv.nodup l (node.Id.get l)
    have hpl := hinv.placed l (node.Id.get l) hd
    simp only [setSlot_rows_same] at hnd hpl
    rw [(hperm.map Node.Id).nodup_iff] at hnd
    apply sortSlot_sorted_placed closer ho t.localNode.Id l (node.Id.get l) _ (by simp; omega) _ hnd
    intro e he
    rw [hi.loc]
    exact hpl e (hperm.mem_iff.mpr he)
  | evict l last hl hnp hlen hlast hc =>
    apply Sorted_setSlot closer t hs
    have hl1 := hl
    rw [hi.loc] at hl1
    have hd := target_ne_own me node l hl1
    have hb := hi.bound l (node.Id.get l)
    have hperm := sortSlot_perm closer t.localNode.Id ((t.rows l (node.Id.get l)).set 2 node)
      (by rw [List.length_set]; exact hb)
    have hnd := hinv.nodup l (node.Id.get l)
    have hpl := hinv.placed l (node.Id.get l) hd
    simp only [setSlot_rows_same] at hnd hpl
    rw [(hperm.map Node.Id).nodup_iff] at hnd
    apply sortSlot_sorted_placed closer ho t.localNode.Id l (node.Id.get l) _
      (by rw [List.length_set]; exact hb) _ hnd
    intro e he
    rw [hi.loc]
    exact hpl e (hperm.mem_iff.mpr he)

theorem Sorted_Remove (closer : ID → ID → ID → Bool) (t : RoutingTable)
    (hs : Sorted closer t) (node : Node) (r : RoutingTable × Bool)
    (h : Remove t node = some r) : Sorted closer r.1 := by
  have hres := Remove_inv t node r h
  cases hres with
  | absent l hl hnp => exact hs
  | single l hl e hslot he =>
    exact Sorted_setSlot closer t hs l _ _ List.Pairwise.nil
  | found l hl j e hj he hlen =>
    apply Sorted_setSlot closer t hs
    exact List.Pairwise.sublist (List.eraseIdx_sublist _ j) (hs l (node.Id.get l))

theorem Sorted_run (closer : ID → ID → ID → Bool) (ho : SlotOrder closer) (me : Node)
    (ops : List Op) : ∀ (t t1 : RoutingTable), Inv me t → Sorted closer t →
      run closer t ops = some t1 → Sorted closer t1 := by
  induction ops with
  | nil =>
    intro t t1 _ hs h
    simp only [run, Option.some.injEq] at h
    exact h ▸ hs
  | cons op ops ih =>
    intro t t1 hi hs h
    simp only [run, Option.bind_eq_some] at h
    obtain ⟨t2, h2, h3⟩ := h
    refine ih t2 t1 (Inv_step closer me t t2 hi op h2) ?_ h3
    cases op with
    | add node =>
      simp only [step, Option.map_eq_some'] at h2
      obtain ⟨r, hr, rfl⟩ := h2
      exact Sorted_Add closer ho me t hi hs node r hr
    | remove node =>
      simp only [step, Option.map_eq_some'] at h2
      obtain ⟨r, hr, rfl⟩ := h2
      exact Sorted_Remove closer t hs node r hr

/-! ## The comparison `Closer` orders the IDs of a slot -/

theorem digitDist_inj (t x y : Digit) (h : digitDist t x = digitDist t y) : x = y := by
  unfold digitDist at h
  have hx := x.isLt
  have hy := y.isLt
  have ht := t.isLt
  apply Fin.ext
  simp only [BASE] at h hx hy ht
  omega

theorem closerDigits_total : ∀ ts xs ys : List Digit, xs.length = ys.length →
    xs.length ≤ ts.length → xs ≠ ys →
    closerDigits ts xs ys = true ∨ closerDigits ts ys xs = true
  | _, [], [], _, _, hne => absurd rfl hne
  | _, [], _ :: _, hlen, _, _ => by simp at hlen
  | _, _ :: _, [], hlen, _, _ => by simp at hlen
  | [], _ :: _, _ :: _, _, hle, _ => by simp at hle
  | t :: ts, x :: xs, y :: ys, hlen, hle, hne => by
    simp only [closerDigits]
    by_cases h1 : digitDist t x < digitDist t y
    · simp [h1]
    · by_cases h2 : digitDist t y < digitDist t x
      · simp [h2]
      · have hxy : x = y := digitDist_inj t x y (by omega)
        subst hxy
        have hne1 : xs ≠ ys := fun h => hne (by rw [h])
        simp only [h1, if_false]
        exact closerDigits_total ts xs ys (by simpa using hlen) (by simpa using hle) hne1

theorem closerDigits_trans : ∀ ts xs ys zs : List Digit,
    closerDigits ts xs ys = true → closerDigits ts ys zs = true →
    closerDigits ts xs zs = true
  | [], _, _, _, h, _ => by simp [closerDigits] at h
  | _ :: _, [], _, _, h, _ => by simp [closerDigits] at h
  | _ :: _, _ :: _, [], _, h, _ => by simp [closerDigits] at h
  | _ :: _, _ :: _, _ :: _, [], _, h => by simp [closerDigits] at h
  | t :: ts, x :: xs, y :: ys, z :: zs, h1, h2 => by
    simp only [closerDigits] at h1 h2 ⊢
    by_cases a1 : digitDist t x < digitDist t y
    · by_cases b1 : digitDist t y < digitDist t z
      · have : digitDist t x < digitDist t z := by omega
        simp [this]
      · by_cases b2 : digitDist t z < digitDist t y
        · simp [b1, b2] at h2
        · have : digitDist t x < digitDist t z := by omega
          simp [this]
    · by_cases a2 : digitDist t y < digitDist t x
      · simp [a1, a2] at h1
      · simp only [a1, a2, if_false] at h1
        by_cases b1 : digitDist t y < digitDist t z
        · have : digitDist t x < digitDist t z := by omega
          simp [this]
        · by_cases b2 : digitDist t z < digitDist t y
          · simp [b1, b2] at h2
          · simp only [b1, b2, if_false] at h2
            have c1 : ¬ digitDist t x < digitDist t z := by omega
            have c2 : ¬ digitDist t z < digitDist t x := by omega
            simp only [c1, c2, if_false]
            exact closerDigits_trans ts xs ys zs h1 h2

theorem sharedDigits_take : ∀ xs ys : List Digit,
    xs.take (sharedDigits xs ys) = ys.take (sharedDigits xs ys)
  | [], _ => by simp [sharedDigits]
  | _ :: _, [] => by simp [sharedDigits]
  | x :: xs, y :: ys => by
    simp only [sharedDigits]
    by_cases h : x = y
    · simp [h, sharedDigits_take xs ys]
    · simp [h]

theorem Closer_sameSlot (loc a b : ID) (h : SameSlot loc a b) :
    Closer loc a b =
      closerDigits (loc.digits.drop (SharedPrefixLength a loc))
        (a.digits.drop (SharedPrefixLength a loc)) (b.digits.drop (SharedPrefixLength a loc)) := by
  simp [Closer, ← h.1]

theorem SlotOrder_Closer : SlotOrder Closer where
  total := by
    intro loc a b hs hne
    have hs2 : SameSlot loc b a := ⟨hs.1.symm, by rw [← hs.1]; exact hs.2.symm⟩
    rw [Closer_sameSlot loc a b hs, Closer_sameSlot loc b a hs2, ← hs.1]
    apply closerDigits_total
    · simp [a.len, b.len]
    · simp [a.len, loc.len]
    · intro hd
      apply hne
      apply ID.ext_digits
      have ha := sharedDigits_take a.digits loc.digits
      have hb := sharedDigits_take b.digits loc.digits
      have hn : sharedDigits b.digits loc.digits = sharedDigits a.digits loc.digits := hs.1.symm
      rw [hn] at hb
      rw [← List.take_append_drop (sharedDigits a.digits loc.digits) a.digits,
        ← List.take_append_drop (sharedDigits a.digits loc.digits) b.digits, ha, hb]
      simp only [SharedPrefixLength] at hd
      rw [hd]
  trans := by
    intro loc a b c hab hbc h1 h2
    have hac : SameSlot loc a c := ⟨hab.1.trans hbc.1, by rw [hab.2, hab.1, hbc.2]⟩
    rw [Closer_sameSlot loc a b hab] at h1
    rw [Closer_sameSlot loc b c hbc, ← hab.1] at h2
    rw [Closer_sameSlot loc a c hac]
    exact closerDigits_trans _ _ _ _ h1 h2

/-! ## Reachability of the concrete tables -/

theorem reachable_getD (closer : ID → ID → ID → Bool) (me : Node) (ops : List Op)
    (h : (run closer (NewRoutingTable me) ops).isSome = true) :
    Reachable closer me ((run closer (NewRoutingTable me) ops).getD (NewRoutingTable me)) := by
  refine ⟨ops, ?_⟩
  cases hr : run closer (NewRoutingTable me) ops with
  | none => rw [hr] at h; cases h
  | some t => rfl

theorem exTable_reachable : Reachable Closer exLocal exTable :=
  reachable_getD Closer exLocal _ (by decide)

theorem exSingle_reachable : Reachable Closer exLocal exSingle :=
  reachable_getD Closer exLocal _ (by decide)

theorem nodup_ids_index (s : List Node) (h : (s.map Node.Id).Nodup) (i j : Nat) (x y : Node)
    (hij : i ≠ j) (hx : s[i]? = some x) (hy : s[j]? = some y) : x.Id ≠ y.Id := by
  intro heq
  have hi : i < (s.map Node.Id).length := by
    by_contra hc
    rw [List.getElem?_eq_none (by simpa using hc)] at hx
    cases hx
  have hj : j < (s.map Node.Id).length := by
    by_contra hc
    rw [List.getElem?_eq_none (by simpa using hc)] at hy
    cases hy
  have h1 : (s.map Node.Id)[i]? = some x.Id := by simp [hx]
  have h2 : (s.map Node.Id)[j]? = some y.Id := by simp [hy]
  rw [List.nodup_iff_getElem?_ne_getElem?] at h
  rcases Nat.lt_or_gt_of_ne hij with hlt | hgt
  · exact h i j hlt hj (by rw [h1, h2, heq])
  · exact h j i hgt hi (by rw [h1, h2, heq])

/-! ## The claims -/

/-- In the evicting branch of `Add` the returned `previous` points at element
2 of the slot after the sort: an entry that is still in the slot, never the
evicted one. -/
theorem Add_evict_previous_still_in_slot (closer : ID → ID → ID → Bool) (me : Node)
    (t : RoutingTable) (h : Reachable closer me t) (node last : Node) (l : Fin DIGITS)
    (hl : SharedPrefixLength node.Id t.localNode.Id = l.val)
    (hlen : (t.rows l (node.Id.get l)).length = SLOTSIZE)
    (hnp : ∀ e ∈ t.rows l (node.Id.get l), e.Id ≠ node.Id)
    (hlast : (t.rows l (node.Id.get l))[SLOTSIZE - 1]? = some last)
    (hc : closer t.localNode.Id node.Id last.Id = true) :
    ∃ (t1 : RoutingTable) (p : Node), Add closer t node = some (t1, true, some p) ∧
      p ∈ t1.rows l (node.Id.get l) ∧ p.Id ≠ last.Id ∧
      node ∈ t1.rows l (node.Id.get l) ∧ ∀ e ∈ t1.rows l (node.Id.get l), e.Id ≠ last.Id := by
  have hi := Inv_reachable closer me t h
  have hnd := hi.nodup l (node.Id.get l)
  have hadd := Add_evict closer t node last l hl hnp (by rw [hlen]; decide) hlast hc
  match hs : t.rows l (node.Id.get l), hlen with
  | [a, b, c], _ =>
    rw [hs] at hnp hnd hlast hadd
    simp only [SLOTSIZE, Nat.add_one_sub_one, List.getElem?_cons_succ,
      List.getElem?_cons_zero, Option.some.injEq] at hlast
    subst hlast
    simp only [List.set_cons_succ, List.set_cons_zero] at hadd
    have hperm := sortSlot_perm closer t.localNode.Id [a, b, node] (by simp)
    have hmem : ∀ e ∈ sortSlot closer t.localNode.Id [a, b, node], e.Id ≠ c.Id := by
      intro e he
      have he1 := hperm.mem_iff.mp he
      simp only [List.map_cons, List.map_nil, List.nodup_cons, List.mem_cons,
        List.mem_singleton, List.not_mem_nil, or_false, not_or] at hnd he1
      rcases he1 with rfl | rfl | rfl
      · exact hnd.1.2
      · exact hnd.2.1
      · exact fun heq => hnp c (by simp) heq.symm
    have h2 : 2 < (sortSlot closer t.localNode.Id [a, b, node]).length := by
      rw [hperm.length_eq]
      simp
    rw [List.getElem?_eq_getElem h2] at hadd
    refine ⟨_, _, hadd, ?_, ?_, ?_, ?_⟩
    · rw [setSlot_rows_same]
      exact List.getElem_mem _
    · exact hmem _ (List.getElem_mem _)
    · rw [setSlot_rows_same]
      exact hperm.mem_iff.mpr (by simp)
    · rw [setSlot_rows_same]
      exact hmem

/-- C1: at the full slot `[exA, exB, exC]` of the local node `exLocal`, with
`exN` not in it and closer to the local ID than `exC`, `Add(exN)` returns
`added = true` and leaves `[exN, exA, exB]` in the slot, yet the returned
`previous` yields `exB`, an entry that is still in the slot, and not the
evicted entry `exC`. -/
theorem Add_evict_previous_not_evicted :
    exTable.rows 0 1 = [exA, exB, exC] ∧
    SharedPrefixLength exN.Id exTable.localNode.Id = 0 ∧ exN.Id.get 0 = 1 ∧
    Closer exTable.localNode.Id exN.Id exC.Id = true ∧
    (Add Closer exTable exN).map (fun r => (r.1.rows 0 1, r.2)) =
      some ([exN, exA, exB], true, some exB) := by
  decide

/-- When the entry to remove is the only entry of its slot, `Remove` empties
the slot and returns `false`. -/
theorem Remove_single_entry (t : RoutingTable) (node e : Node) (l : Fin DIGITS)
    (hl : SharedPrefixLength node.Id t.localNode.Id = l.val)
    (hslot : t.rows l (node.Id.get l) = [e]) (he : e.Id = node.Id) :
    Remove t node = some (t.setSlot l (node.Id.get l) [], false) := by
  apply Remove_single t node l hl 0
  · rw [hslot]
    simp [firstMatch, he]
  · rw [hslot]
    rfl

/-- C2: in the table of `exLocal` reached by `Add(exN)`, the node `exN` (whose
ID is not the local ID) is the only entry of its slot; `Remove(exN)` deletes
it and returns `false`. -/
theorem Remove_only_entry_returns_false :
    exN.Id ≠ exSingle.localNode.Id ∧ exSingle.rows 0 1 = [exN] ∧
    (Remove exSingle exN).map (fun r => (r.1.rows 0 1, r.2)) = some ([], false) := by
  decide

/-- C3: `Remove` of a node that has the local ID ends in the fault "index out
of range" (`NodeId[PreLen]` with `PreLen = DIGITS`) in every table. -/
theorem Remove_local_node_faults (t : RoutingTable) (address : String) :
    Remove t ⟨t.localNode.Id, address⟩ = none :=
  Remove_local t _ (SharedPrefixLength_self _)

/-- C4: a duplicate `Add` is idempotent: on a reachable routing table `Add(n)`
returns, and a second `Add(n)` right after it returns `(false, nil)` and
leaves the table exactly as the first call left it; more generally `Add` of a
node whose ID is already in its slot returns `(false, nil)` and changes
nothing. -/
theorem Add_twice (closer : ID → ID → ID → Bool) (me : Node) (t : RoutingTable)
    (h : Reachable closer me t) (n : Node) :
    (∃ (t1 : RoutingTable) (added : Bool) (previous : Option Node),
      Add closer t n = some (t1, added, previous) ∧
      Add closer t1 n = some (t1, false, none)) ∧
    (∀ l : Fin DIGITS, SharedPrefixLength n.Id t.localNode.Id = l.val →
      (∃ e ∈ t.rows l (n.Id.get l), e.Id = n.Id) →
      Add closer t n = some (t, false, none)) := by
  refine ⟨?_, fun l hl hp => Add_present closer t n l hl hp⟩
  have hi := Inv_reachable closer me t h
  obtain ⟨r, hr, ho⟩ := Add_outcome closer t n
  cases ho with
  | unchanged => exact ⟨t, false, none, hr, hr⟩
  | room l hl hnp hlen =>
    refine ⟨_, true, none, hr, ?_⟩
    apply Add_present closer _ n l (by rw [setSlot_localNode]; exact hl)
    refine ⟨n, ?_, rfl⟩
    rw [setSlot_rows_same]
    have hperm := sortSlot_perm closer t.localNode.Id (t.rows l (n.Id.get l) ++ [n])
      (by simp; omega)
    exact hperm.mem_iff.mpr (by simp)
  | evict l last hl hnp hlen hlast hc =>
    refine ⟨_, true, _, hr, ?_⟩
    apply Add_present closer _ n l (by rw [setSlot_localNode]; exact hl)
    refine ⟨n, ?_, rfl⟩
    rw [setSlot_rows_same]
    have hperm := sortSlot_perm closer t.localNode.Id ((t.rows l (n.Id.get l)).set 2 n)
      (by rw [List.length_set]; exact hi.bound l _)
    apply hperm.mem_iff.mpr
    exact List.mem_iff_getElem?.mpr ⟨2, by rw [List.getElem?_set_self hlen]⟩

theorem Add_twice_witness :
    Reachable Closer exLocal exTable ∧
    ((∃ (t1 : RoutingTable) (added : Bool) (previous : Option Node),
      Add Closer exTable exN = some (t1, added, previous) ∧
      Add Closer t1 exN = some (t1, false, none)) ∧
    (∀ l : Fin DIGITS, SharedPrefixLength exN.Id exTable.localNode.Id = l.val →
      (∃ e ∈ exTable.rows l (exN.Id.get l), e.Id = exN.Id) →
      Add Closer exTable exN = some (exTable, false, none))) :=
  ⟨exTable_reachable, Add_twice Closer exLocal exTable exTable_reachable exN⟩

/-- C5: in every routing table reachable from `NewRoutingTable` by calls of
`Add` and `Remove`, every slot has at most `SLOTSIZE` entries and no two
entries of a slot have the same ID. -/
theorem slot_bounded_without_duplicates (closer : ID → ID → ID → Bool) (me : Node)
    (t : RoutingTable) (h : Reachable closer me t) (l : Fin DIGITS) (d : Digit) :
    (t.rows l d).length ≤ SLOTSIZE ∧
      ∀ (i j : Nat) (x y : Node), i ≠ j → (t.rows l d)[i]? = some x →
        (t.rows l d)[j]? = some y → x.Id ≠ y.Id := by
  have hi := Inv_reachable closer me t h
  exact ⟨hi.bound l d, fun i j x y hij hx hy =>
    nodup_ids_index _ (hi.nodup l d) i j x y hij hx hy⟩

theorem slot_bounded_without_duplicates_witness :
    Reachable Closer exLocal exTable ∧
    ((exTable.rows 0 1).length ≤ SLOTSIZE ∧
      ∀ (i j : Nat) (x y : Node), i ≠ j → (exTable.rows 0 1)[i]? = some x →
        (exTable.rows 0 1)[j]? = some y → x.Id ≠ y.Id) :=
  ⟨exTable_reachable,
    slot_bounded_without_duplicates Closer exLocal exTable exTable_reachable 0 1⟩

/-- C6: in every routing table reachable from `NewRoutingTable` by calls of
`Add` and `Remove`, within each slot `closer(local.id, slot[i].id,
slot[j].id)` holds for all indices `i < j`; the comparison `closer` is
any one that is total and transitive on the IDs of one slot. -/
theorem slot_sorted_by_closer (closer : ID → ID → ID → Bool) (ho : SlotOrder closer)
    (me : Node) (t : RoutingTable) (h : Reachable closer me t) (l : Fin DIGITS) (d : Digit)
    (i j : Nat) (x y : Node) (hij : i < j) (hx : (t.rows l d)[i]? = some x)
    (hy : (t.rows l d)[j]? = some y) : closer t.localNode.Id x.Id y.Id = true := by
  obtain ⟨ops, hops⟩ := h
  have hs := Sorted_run closer ho me ops _ t (Inv_new me) (Sorted_new closer me) hops l d
  unfold SlotSorted at hs
  rw [List.pairwise_iff_getElem] at hs
  have hj : j < (t.rows l d).length := by
    by_contra hc
    rw [List.getElem?_eq_none (by omega)] at hy
    cases hy
  have hi : i < (t.rows l d).length := by omega
  have h1 := hs i j hi hj hij
  rw [List.getElem?_eq_getElem hi] at hx
  rw [List.getElem?_eq_getElem hj] at hy
  cases hx
  cases hy
  exact h1

theorem slot_sorted_by_closer_witness :
    SlotOrder Closer ∧ Reachable Closer exLocal exTable ∧ 0 < 2 ∧
    (exTable.rows 0 1)[0]? = some exA ∧ (exTable.rows 0 1)[2]? = some exC ∧
    Closer exTable.localNode.Id exA.Id exC.Id = true :=
  ⟨SlotOrder_Closer, exTable_reachable, by decide, by decide, by decide,
    slot_sorted_by_closer Closer SlotOrder_Closer exLocal exTable exTable_reachable 0 1 0 2
      exA exC (by decide) (by decide) (by decide)⟩

/-- C7: in every routing table reachable from `NewRoutingTable(me)` by calls
of `Add` and `Remove`, the local node is at index 0 of the slot
`rows[l][me.Id[l]]` of every level `l`, no other slot of that level has an
entry with its ID, and the slots that contain it are exactly `DIGITS`
many. -/
theorem local_node_once_per_level (closer : ID → ID → ID → Bool) (me : Node)
    (t : RoutingTable) (h : Reachable closer me t) :
    t.localNode = me ∧
    (∀ l : Fin DIGITS, (t.rows l (me.Id.get l))[0]? = some me ∧
      (t.rows l (me.Id.get l)).count me = 1 ∧
      ∀ d : Digit, d ≠ me.Id.get l → ∀ e ∈ t.rows l d, e.Id ≠ me.Id) ∧
    (Finset.univ.filter (fun p : Fin DIGITS × Digit => me ∈ t.rows p.1 p.2)).card = DIGITS := by
  have hi := Inv_reachable closer me t h
  have hother : ∀ (l : Fin DIGITS) (d : Digit), d ≠ me.Id.get l →
      ∀ e ∈ t.rows l d, e.Id ≠ me.Id := by
    intro l d hd e he heq
    have hp := (hi.placed l d hd e he).1
    rw [heq, SharedPrefixLength_self] at hp
    have := l.isLt
    omega
  refine ⟨hi.loc, ?_, ?_⟩
  · intro l
    rw [hi.own l]
    exact ⟨rfl, by simp, hother l⟩
  · have hset : Finset.univ.filter (fun p : Fin DIGITS × Digit => me ∈ t.rows p.1 p.2) =
        Finset.univ.image (fun l : Fin DIGITS => (l, me.Id.get l)) := by
      ext p
      simp only [Finset.mem_filter, Finset.mem_univ, true_and, Finset.mem_image]
      constructor
      · intro hp
        refine ⟨p.1, ?_⟩
        by_contra hne
        have hd : p.2 ≠ me.Id.get p.1 := by
          intro heq
          apply hne
          rw [← heq]
        exact hother p.1 p.2 hd me hp rfl
      · rintro ⟨l, rfl⟩
        simp only
        rw [hi.own l]
        simp
    rw [hset, Finset.card_image_of_injective]
    · simp
    · intro a b hab
      simpa using congrArg Prod.fst hab

theorem local_node_once_per_level_witness :
    Reachable Closer exLocal exTable ∧
    (exTable.localNode = exLocal ∧
    (∀ l : Fin DIGITS, (exTable.rows l (exLocal.Id.get l))[0]? = some exLocal ∧
      (exTable.rows l (exLocal.Id.get l)).count exLocal = 1 ∧
      ∀ d : Digit, d ≠ exLocal.Id.get l → ∀ e ∈ exTable.rows l d, e.Id ≠ exLocal.Id) ∧
    (Finset.univ.filter
      (fun p : Fin DIGITS × Digit => exLocal ∈ exTable.rows p.1 p.2)).card = DIGITS) :=
  ⟨exTable_reachable, local_node_once_per_level Closer exLocal exTable exTable_reachable⟩

/-- C8: in every routing table reachable from `NewRoutingTable` by calls of
`Add` and `Remove`, every entry `e` of the slot `rows[l][d]` has
`e.Id[l] == d`, and every entry other than the local node has
`SharedPrefixLength(e.Id, local.Id) == l`. -/
theorem entry_in_its_slot (closer : ID → ID → ID → Bool) (me : Node)
    (t : RoutingTable) (h : Reachable closer me t) (l : Fin DIGITS) (d : Digit)
    (e : Node) (he : e ∈ t.rows l d) :
    e.Id.get l = d ∧
      (e ≠ t.localNode → SharedPrefixLength e.Id t.localNode.Id = l.val) := by
  have hi := Inv_reachable closer me t h
  rw [hi.loc]
  by_cases hd : d = me.Id.get l
  · subst hd
    rw [hi.own l, List.mem_singleton] at he
    subst he
    exact ⟨rfl, fun hne => absurd rfl hne⟩
  · have hp := hi.placed l d hd e he
    exact ⟨hp.2, fun _ => hp.1⟩

theorem entry_in_its_slot_witness :
    Reachable Closer exLocal exTable ∧ exB ∈ exTable.rows 0 1 ∧
    (exB.Id.get 0 = 1 ∧
      (exB ≠ exTable.localNode → SharedPrefixLength exB.Id exTable.localNode.Id = (0 : Fin DIGITS).val)) :=
  ⟨exTable_reachable, by decide,
    entry_in_its_slot Closer exLocal exTable exTable_reachable 0 1 exB (by decide)⟩

/-- C9: for a node whose ID differs from the local ID (its level
`l = SharedPrefixLength(node.Id, local.Id)` is below `DIGITS`), that is not
in its target slot `rows[l][node.Id[l]]`, and whose target slot holds fewer
than `SLOTSIZE` entries, `Add` returns `(true, nil)`; afterwards that slot
holds the node together with exactly the entries it held before, its length
has grown by one, and every other slot is unchanged. -/
theorem Add_into_free_slot (closer : ID → ID → ID → Bool) (t : RoutingTable) (node : Node)
    (l : Fin DIGITS) (hl : SharedPrefixLength node.Id t.localNode.Id = l.val)
    (hnp : ∀ e ∈ t.rows l (node.Id.get l), e.Id ≠ node.Id)
    (hlen : (t.rows l (node.Id.get l)).length < SLOTSIZE) :
    ∃ t1 : RoutingTable, Add closer t node = some (t1, true, none) ∧
      t1.localNode = t.localNode ∧
      (t1.rows l (node.Id.get l)).Perm (node :: t.rows l (node.Id.get l)) ∧
      (t1.rows l (node.Id.get l)).length = (t.rows l (node.Id.get l)).length + 1 ∧
      ∀ (l1 : Fin DIGITS) (d1 : Digit), ¬ (l1 = l ∧ d1 = node.Id.get l) →
        t1.rows l1 d1 = t.rows l1 d1 := by
  have hlen2 : (t.rows l (node.Id.get l)).length ≤ 2 := by
    simp only [SLOTSIZE] at hlen
    omega
  have hperm := sortSlot_perm closer t.localNode.Id (t.rows l (node.Id.get l) ++ [node])
    (by simp; omega)
  have hperm2 : (sortSlot closer t.localNode.Id (t.rows l (node.Id.get l) ++ [node])).Perm
      (node :: t.rows l (node.Id.get l)) :=
    hperm.trans (List.perm_append_singleton _ _)
  refine ⟨_, Add_room closer t node l hl hnp hlen2, rfl, ?_, ?_, ?_⟩
  · rw [setSlot_rows_same]
    exact hperm2
  · rw [setSlot_rows_same, hperm2.length_eq]
    simp
  · intro l1 d1 hc
    exact setSlot_rows_other _ _ _ _ _ _ hc

theorem Add_into_free_slot_witness :
    SharedPrefixLength exA.Id exSingle.localNode.Id = (0 : Fin DIGITS).val ∧
    (∀ e ∈ exSingle.rows 0 (exA.Id.get 0), e.Id ≠ exA.Id) ∧
    (exSingle.rows 0 (exA.Id.get 0)).length < SLOTSIZE ∧
    ∃ t1 : RoutingTable, Add Closer exSingle exA = some (t1, true, none) ∧
      t1.localNode = exSingle.localNode ∧
      (t1.rows 0 (exA.Id.get 0)).Perm (exA :: exSingle.rows 0 (exA.Id.get 0)) ∧
      (t1.rows 0 (exA.Id.get 0)).length = (exSingle.rows 0 (exA.Id.get 0)).length + 1 ∧
      ∀ (l1 : Fin DIGITS) (d1 : Digit), ¬ (l1 = 0 ∧ d1 = exA.Id.get 0) →
        t1.rows l1 d1 = exSingle.rows l1 d1 :=
  ⟨by decide, by decide, by decide,
    Add_into_free_slot Closer exSingle exA 0 (by decide) (by decide) (by decide)⟩

/-- C10: whenever `Add` returns `added = false`, the returned `previous` is
`nil` and the routing table is exactly as it was before the call; and this
happens only when the node has the local ID, or its ID is already in its
slot, or its slot holds more than two entries and it is not closer to the
local ID than the entry at index 2. -/
theorem Add_not_added_leaves_table (closer : ID → ID → ID → Bool) (t t1 : RoutingTable)
    (node : Node) (previous : Option Node)
    (h : Add closer t node = some (t1, false, previous)) :
    previous = none ∧ t1 = t ∧
      (node.Id = t.localNode.Id ∨
        ∃ l : Fin DIGITS, SharedPrefixLength node.Id t.localNode.Id = l.val ∧
          ((∃ e ∈ t.rows l (node.Id.get l), e.Id = node.Id) ∨
            ∃ last : Node, 2 < (t.rows l (node.Id.get l)).length ∧
              (t.rows l (node.Id.get l))[2]? = some last ∧
              closer t.localNode.Id node.Id last.Id = false)) := by
  have ho := Add_inv closer t node _ h
  have hfr : previous = none ∧ t1 = t := by
    generalize hr : (t1, false, previous) = r at ho
    cases ho with
    | unchanged =>
      simp only [Prod.mk.injEq] at hr
      exact ⟨hr.2.2, hr.1⟩
    | room l hl hnp hlen => simp at hr
    | evict l last hl hnp hlen hlast hc => simp at hr
  refine ⟨hfr.1, hfr.2, ?_⟩
  by_cases hd : SharedPrefixLength node.Id t.localNode.Id = DIGITS
  · exact Or.inl (SharedPrefixLength_eq_DIGITS hd)
  · right
    have hlt : SharedPrefixLength node.Id t.localNode.Id < DIGITS :=
      lt_of_le_of_ne (SharedPrefixLength_le _ _) hd
    refine ⟨⟨_, hlt⟩, rfl, ?_⟩
    by_cases hp : ∃ e ∈ t.rows ⟨_, hlt⟩ (node.Id.get ⟨_, hlt⟩), e.Id = node.Id
    · exact Or.inl hp
    · right
      have hnp : ∀ e ∈ t.rows ⟨_, hlt⟩ (node.Id.get ⟨_, hlt⟩), e.Id ≠ node.Id := by
        intro e he heq
        exact hp ⟨e, he, heq⟩
      by_cases hlen : (t.rows ⟨_, hlt⟩ (node.Id.get ⟨_, hlt⟩)).length ≤ 2
      · rw [Add_room closer t node ⟨_, hlt⟩ rfl hnp hlen] at h
        simp at h
      · have hlen2 : 2 < (t.rows ⟨_, hlt⟩ (node.Id.get ⟨_, hlt⟩)).length := by omega
        have hlast : (t.rows ⟨_, hlt⟩ (node.Id.get ⟨_, hlt⟩))[2]? =
            some ((t.rows ⟨_, hlt⟩ (node.Id.get ⟨_, hlt⟩)).get ⟨2, hlen2⟩) := by
          rw [List.getElem?_eq_getElem hlen2]
          rfl
        refine ⟨_, hlen2, hlast, ?_⟩
        cases hc : closer t.localNode.Id node.Id
            ((t.rows ⟨_, hlt⟩ (node.Id.get ⟨_, hlt⟩)).get ⟨2, hlen2⟩).Id
        · rfl
        · rw [Add_evict closer t node _ ⟨_, hlt⟩ rfl hnp hlen2 hlast hc] at h
          simp at h

theorem Add_not_added_leaves_table_witness :
    Add Closer exTable exC = some (exTable, false, none) ∧
    ((none : Option Node) = none ∧ exTable = exTable ∧
      (exC.Id = exTable.localNode.Id ∨
        ∃ l : Fin DIGITS, SharedPrefixLength exC.Id exTable.localNode.Id = l.val ∧
          ((∃ e ∈ exTable.rows l (exC.Id.get l), e.Id = exC.Id) ∨
            ∃ last : Node, 2 < (exTable.rows l (exC.Id.get l)).length ∧
              (exTable.rows l (exC.Id.get l))[2]? = some last ∧
              Closer exTable.localNode.Id exC.Id last.Id = false))) :=
  have h : Add Closer exTable exC = some (exTable, false, none) :=
    Add_present Closer exTable exC 0 (by decide) ⟨exC, by decide, rfl⟩
  ⟨h, Add_not_added_leaves_table Closer exTable exTable exC none h⟩

theorem eraseIdx_eq_filter_id (id : ID) : ∀ (s : List Node), (s.map Node.Id).Nodup →
    ∀ (j : Nat) (e : Node), s[j]? = some e → e.Id = id →
    s.eraseIdx j = s.filter (fun x => decide (x.Id ≠ id))
  | [], _, j, e, hj, _ => by simp at hj
  | x :: xs, hnd, 0, e, hj, he => by
    simp only [List.getElem?_cons_zero, Option.some.injEq] at hj
    subst hj
    simp only [List.map_cons, List.nodup_cons, List.mem_map, not_exists, not_and] at hnd
    have hxs : xs.filter (fun y => decide (y.Id ≠ id)) = xs := by
      rw [List.filter_eq_self]
      intro y hy
      have := hnd.1 y hy
      simpa [he] using this
    rw [List.eraseIdx_cons_zero, List.filter_cons_of_neg (by simp [he]), hxs]
  | x :: xs, hnd, j + 1, e, hj, he => by
    simp only [List.getElem?_cons_succ] at hj
    simp only [List.map_cons, List.nodup_cons, List.mem_map, not_exists, not_and] at hnd
    have hx : x.Id ≠ id := by
      intro hx
      have hmem : e ∈ xs := List.mem_iff_getElem?.mpr ⟨j, hj⟩
      exact hnd.1 e hmem (by rw [he, hx])
    have ih := eraseIdx_eq_filter_id id xs hnd.2 j e hj he
    rw [List.eraseIdx_cons_succ, List.filter_cons_of_pos (by simp [hx]), ih]

theorem present_in_target_slot (me : Node) (t : RoutingTable) (hi : Inv me t) (e : Node)
    (l0 : Fin DIGITS) (d0 : Digit) (he : e ∈ t.rows l0 d0) (hne : e.Id ≠ me.Id) :
    SharedPrefixLength e.Id me.Id = l0.val ∧ e.Id.get l0 = d0 := by
  by_cases hd : d0 = me.Id.get l0
  · subst hd
    rw [hi.own l0, List.mem_singleton] at he
    subst he
    exact absurd rfl hne
  · exact hi.placed l0 d0 hd e he

/-- C11: `Remove` deletes preserving order: for a reachable routing table and a
node that does not have the local ID and whose ID is in the table,
`Remove(node)` returns, and afterwards the node's slot holds exactly its
previous entries without the entry of that ID, in the same relative order
(one entry fewer), and every other slot of the table is unchanged. -/
theorem Remove_preserves_order (closer : ID → ID → ID → Bool) (me : Node) (t : RoutingTable)
    (h : Reachable closer me t) (node e : Node) (l0 : Fin DIGITS) (d0 : Digit)
    (hne : node.Id ≠ t.localNode.Id) (he : e ∈ t.rows l0 d0) (heid : e.Id = node.Id) :
    SharedPrefixLength node.Id t.localNode.Id = l0.val ∧ node.Id.get l0 = d0 ∧
    ∃ (t1 : RoutingTable) (wasRemoved : Bool), Remove t node = some (t1, wasRemoved) ∧
      t1.localNode = t.localNode ∧
      t1.rows l0 d0 = (t.rows l0 d0).filter (fun x => decide (x.Id ≠ node.Id)) ∧
      (t1.rows l0 d0).length + 1 = (t.rows l0 d0).length ∧
      ∀ (l1 : Fin DIGITS) (d1 : Digit), ¬ (l1 = l0 ∧ d1 = d0) →
        t1.rows l1 d1 = t.rows l1 d1 := by
  have hi := Inv_reachable closer me t h
  rw [hi.loc] at hne ⊢
  have hpl := present_in_target_slot me t hi e l0 d0 he (by rw [heid]; exact hne)
  rw [heid] at hpl
  obtain ⟨hl0, hd0⟩ := hpl
  refine ⟨hl0, hd0, ?_⟩
  have hd : SharedPrefixLength node.Id t.localNode.Id ≠ DIGITS := by
    rw [hi.loc, hl0]
    exact Nat.ne_of_lt l0.isLt
  obtain ⟨r, hr, ho⟩ := Remove_outcome t node hd
  have hnd := hi.nodup l0 d0
  cases ho with
  | absent l hl hnp =>
    rw [hi.loc, hl0] at hl
    have hll : l0 = l := Fin.ext hl
    subst hll
    rw [hd0] at hnp
    exact absurd heid (hnp e he)
  | single l hl e1 hslot he1 =>
    rw [hi.loc, hl0] at hl
    have hll : l0 = l := Fin.ext hl
    subst hll
    rw [hd0] at hslot
    refine ⟨_, _, hr, hi.loc, ?_, ?_, ?_⟩
    · rw [hd0, setSlot_rows_same, hslot]
      simp [he1]
    · rw [hd0, setSlot_rows_same, hslot]
      rfl
    · intro l1 d1 hc
      rw [hd0]
      exact setSlot_rows_other _ _ _ _ _ _ hc
  | found l hl j e1 hj he1 hlen =>
    rw [hi.loc, hl0] at hl
    have hll : l0 = l := Fin.ext hl
    subst hll
    rw [hd0] at hj hlen
    have hjlt : j < (t.rows l0 d0).length := by
      by_contra hcon
      rw [List.getElem?_eq_none (by omega)] at hj
      cases hj
    refine ⟨_, _, hr, hi.loc, ?_, ?_, ?_⟩
    · rw [hd0, setSlot_rows_same]
      exact eraseIdx_eq_filter_id node.Id _ hnd j e1 hj he1
    · rw [hd0, setSlot_rows_same, List.length_eraseIdx, if_pos hjlt]
      omega
    · intro l1 d1 hc
      rw [hd0]
      exact setSlot_rows_other _ _ _ _ _ _ hc

theorem Remove_preserves_order_witness :
    Reachable Closer exLocal exTable ∧ exB.Id ≠ exTable.localNode.Id ∧
    exB ∈ exTable.rows 0 1 ∧ exB.Id = exB.Id ∧
    (SharedPrefixLength exB.Id exTable.localNode.Id = (0 : Fin DIGITS).val ∧
    exB.Id.get 0 = 1 ∧
    ∃ (t1 : RoutingTable) (wasRemoved : Bool), Remove exTable exB = some (t1, wasRemoved) ∧
      t1.localNode = exTable.localNode ∧
      t1.rows 0 1 = (exTable.rows 0 1).filter (fun x => decide (x.Id ≠ exB.Id)) ∧
      (t1.rows 0 1).length + 1 = (exTable.rows 0 1).length ∧
      ∀ (l1 : Fin DIGITS) (d1 : Digit), ¬ (l1 = 0 ∧ d1 = 1) →
        t1.rows l1 d1 = exTable.rows l1 d1) :=
  ⟨exTable_reachable, by decide, by decide, rfl,
    Remove_preserves_order Closer exLocal exTable exTable_reachable exB exB 0 1
      (by decide) (by decide) rfl⟩

theorem getLevel_fold (t : RoutingTable) (l : Fin DIGITS) (xs : List Digit) (acc : List Node) :
    xs.foldl (levelStep t l) acc =
      acc ++ xs.filterMap (fun d => levelStep t l [] d |>.head?) := by
  induction xs generalizing acc with
  | nil => simp
  | cons x xs ih =>
    rw [List.foldl_cons, ih, List.filterMap_cons]
    unfold levelStep
    cases hx : t.rows l x with
    | nil => simp
    | cons first rest =>
      by_cases hf : first.Id ≠ t.localNode.Id
      · simp [hf]
      · simp [hf]

theorem entry_eq_local_of_id (me : Node) (t : RoutingTable) (hi : Inv me t) (e : Node)
    (l : Fin DIGITS) (d : Digit) (he : e ∈ t.rows l d) (hid : e.Id = me.Id) : e = me := by
  by_cases hd : d = me.Id.get l
  · subst hd
    rw [hi.own l, List.mem_singleton] at he
    exact he
  · have hp := (hi.placed l d hd e he).1
    rw [hid, SharedPrefixLength_self] at hp
    have := l.isLt
    omega

theorem filterMap_length_lt {α β : Type} (f : α → Option β) (xs : List α) (a : α)
    (ha : a ∈ xs) (hf : f a = none) : (xs.filterMap f).length + 1 ≤ xs.length := by
  induction xs with
  | nil => cases ha
  | cons x xs ih =>
    rw [List.filterMap_cons]
    rcases List.mem_cons.mp ha with rfl | hmem
    · rw [hf]
      have := List.length_filterMap_le f xs
      simp only [List.length_cons]
      omega
    · have := ih hmem
      cases hx : f x with
      | none => simp only [List.length_cons]; omega
      | some b => simp only [List.length_cons]; omega

/-- C12: for a reachable routing table and a level `l` in `[0, DIGITS)`,
`GetLevel(l)` returns exactly the list, in ascending digit order, of the
first elements of the non-empty slots `rows[l][d]` whose first element is
not the local node; it never contains the local node and has at most
`BASE - 1` elements. -/
theorem GetLevel_first_elements (closer : ID → ID → ID → Bool) (me : Node) (t : RoutingTable)
    (h : Reachable closer me t) (l : Fin DIGITS) :
    GetLevel t l.val = some (getLevelSpec t l) ∧
      t.localNode ∉ getLevelSpec t l ∧ (getLevelSpec t l).length ≤ BASE - 1 := by
  have hi := Inv_reachable closer me t h
  refine ⟨?_, ?_, ?_⟩
  · simp only [GetLevel, dif_pos l.isLt, Fin.eta, Option.some.injEq]
    rw [getLevel_fold, List.nil_append]
    unfold getLevelSpec
    apply List.filterMap_congr
    intro d _
    unfold firstNonLocal levelStep
    cases hs : t.rows l d with
    | nil => rfl
    | cons first rest =>
      simp only
      have hmem : first ∈ t.rows l d := by rw [hs]; simp
      by_cases hf : first.Id = t.localNode.Id
      · have := entry_eq_local_of_id me t hi first l d hmem (by rw [hf, hi.loc])
        rw [hi.loc]
        simp [this]
      · have hne : first ≠ t.localNode := fun heq => hf (by rw [heq])
        simp [hf, hne]
  · intro hmem
    unfold getLevelSpec at hmem
    rw [List.mem_filterMap] at hmem
    obtain ⟨d, _, hd⟩ := hmem
    unfold firstNonLocal at hd
    cases hs : t.rows l d with
    | nil => rw [hs] at hd; cases hd
    | cons first rest =>
      rw [hs] at hd
      simp only at hd
      by_cases hf : first ≠ t.localNode
      · rw [if_pos hf] at hd
        cases hd
        exact hf rfl
      · rw [if_neg hf] at hd
        cases hd
  · have hnone : firstNonLocal t l (me.Id.get l) = none := by
      unfold firstNonLocal
      rw [hi.own l, hi.loc]
      simp
    have := filterMap_length_lt (firstNonLocal t l) (List.finRange BASE) (me.Id.get l)
      (List.mem_finRange _) hnone
    rw [List.length_finRange] at this
    unfold getLevelSpec
    omega

theorem GetLevel_first_elements_witness :
    Reachable Closer exLocal exTable ∧
    (GetLevel exTable (0 : Fin DIGITS).val = some (getLevelSpec exTable 0) ∧
      exTable.localNode ∉ getLevelSpec exTable 0 ∧ (getLevelSpec exTable 0).length ≤ BASE - 1) :=
  ⟨exTable_reachable, GetLevel_first_elements Closer exLocal exTable exTable_reachable 0⟩

/-! ## The scan of `GetNextHop` -/

theorem scanStep_cases (bc : ID → ID → ID → Bool) (t : RoutingTable) (id : ID)
    (l : Fin DIGITS) (res : Node) (d : Digit) :
    (scanStep bc t id l res d = res ∧
      ∀ c, (t.rows l d).head? = some c → bc id c.Id res.Id = false) ∨
    ((t.rows l d).head? = some (scanStep bc t id l res d) ∧
      bc id (scanStep bc t id l res d).Id res.Id = true) := by
  unfold scanStep
  cases hs : t.rows l d with
  | nil => left; simp
  | cons cur rest =>
    cases hb : bc id cur.Id res.Id
    · left
      simp [hb]
    · right
      simp [hb]

theorem scan_mem (bc : ID → ID → ID → Bool) (t : RoutingTable) (id : ID) (l : Fin DIGITS)
    (xs : List Digit) (res : Node) :
    xs.foldl (scanStep bc t id l) res = res ∨
      ∃ d ∈ xs, (t.rows l d).head? = some (xs.foldl (scanStep bc t id l) res) := by
  induction xs generalizing res with
  | nil => left; rfl
  | cons x xs ih =>
    rw [List.foldl_cons]
    rcases ih (scanStep bc t id l res x) with h | ⟨d, hd, h⟩
    · rw [h]
      rcases scanStep_cases bc t id l res x with h1 | h1
      · exact Or.inl h1.1
      · exact Or.inr ⟨x, by simp, h1.1⟩
    · exact Or.inr ⟨d, by simp [hd], h⟩

theorem scan_stay (bc : ID → ID → ID → Bool) (t : RoutingTable) (id : ID) (l : Fin DIGITS)
    (xs : List Digit) (res : Node)
    (h : ∀ d ∈ xs, ∀ c, (t.rows l d).head? = some c → bc id c.Id res.Id = false) :
    xs.foldl (scanStep bc t id l) res = res := by
  induction xs with
  | nil => rfl
  | cons x xs ih =>
    rw [List.foldl_cons]
    have hx : scanStep bc t id l res x = res := by
      rcases scanStep_cases bc t id l res x with h1 | h1
      · exact h1.1
      · have := h x (by simp) _ h1.1
        rw [h1.2] at this
        cases this
    rw [hx]
    exact ih (fun d hd => h d (by simp [hd]))

theorem scan_better (bc : ID → ID → ID → Bool) (hs : StrictChoice bc) (t : RoutingTable)
    (id : ID) (l : Fin DIGITS) (xs : List Digit) (res : Node) :
    xs.foldl (scanStep bc t id l) res = res ∨
      bc id (xs.foldl (scanStep bc t id l) res).Id res.Id = true := by
  induction xs generalizing res with
  | nil => left; rfl
  | cons x xs ih =>
    rw [List.foldl_cons]
    rcases scanStep_cases bc t id l res x with h1 | h1
    · rw [h1.1]
      exact ih res
    · rcases ih (scanStep bc t id l res x) with h2 | h2
      · rw [h2]
        exact Or.inr h1.2
      · exact Or.inr (hs.trans id _ _ _ h2 h1.2)

theorem scan_moves (bc : ID → ID → ID → Bool) (hs : StrictChoice bc) (t : RoutingTable)
    (id : ID) (l : Fin DIGITS) (xs : List Digit) (res : Node) (d : Digit) (c : Node)
    (hd : d ∈ xs) (hc : (t.rows l d).head? = some c) (hb : bc id c.Id res.Id = true) :
    bc id (xs.foldl (scanStep bc t id l) res).Id res.Id = true := by
  induction xs generalizing res with
  | nil => cases hd
  | cons x xs ih =>
    rw [List.foldl_cons]
    rcases scanStep_cases bc t id l res x with h1 | h1
    · rcases List.mem_cons.mp hd with rfl | hmem
      · have := h1.2 c hc
        rw [hb] at this
        cases this
      · rw [h1.1]
        exact ih res hmem hb
    · rcases scan_better bc hs t id l xs (scanStep bc t id l res x) with h2 | h2
      · rw [h2]
        exact h1.2
      · exact hs.trans id _ _ _ h2 h1.2

theorem scan_best (bc : ID → ID → ID → Bool) (hs : StrictChoice bc) (t : RoutingTable)
    (id : ID) (l : Fin DIGITS) (xs : List Digit) (res : Node) (d : Digit) (c : Node)
    (hd : d ∈ xs) (hc : (t.rows l d).head? = some c) :
    bc id c.Id (xs.foldl (scanStep bc t id l) res).Id = false := by
  induction xs generalizing res with
  | nil => cases hd
  | cons x xs ih =>
    rw [List.foldl_cons]
    rcases List.mem_cons.mp hd with rfl | hmem
    · rw [Bool.eq_false_iff]
      intro hcon
      rcases scan_better bc hs t id l xs (scanStep bc t id l res d) with h2 | h2
      · rw [h2] at hcon
        rcases scanStep_cases bc t id l res d with h1 | h1
        · rw [h1.1] at hcon
          have := h1.2 c hc
          rw [hcon] at this
          cases this
        · rw [hc, Option.some.injEq] at h1
          rw [← h1.1, hs.irrefl] at hcon
          cases hcon
      · have h3 := hs.trans id _ _ _ hcon h2
        rcases scanStep_cases bc t id l res d with h1 | h1
        · rw [h1.1] at h3
          have := h1.2 c hc
          rw [h3] at this
          cases this
        · rw [hc, Option.some.injEq] at h1
          rw [← h1.1, hs.irrefl] at h3
          cases h3
    · exact ih _ hmem

theorem hopLoop_succ (bc : ID → ID → ID → Bool) (t : RoutingTable) (id : ID) (k : Nat)
    (res : Node) (h : DIGITS - (k + 1) < DIGITS) :
    hopLoop bc t id (k + 1) res =
      if (scanLevel bc t id ⟨DIGITS - (k + 1), h⟩ res).Id = t.localNode.Id then
        hopLoop bc t id k (scanLevel bc t id ⟨DIGITS - (k + 1), h⟩ res)
      else scanLevel bc t id ⟨DIGITS - (k + 1), h⟩ res := by
  simp only [hopLoop, dif_pos h]

theorem level_lt (k : Nat) : DIGITS - (k + 1) < DIGITS := by
  simp only [DIGITS]
  omega

theorem hopLoop_mem (bc : ID → ID → ID → Bool) (t : RoutingTable) (id : ID) (k : Nat) :
    ∀ res : Node, k ≤ DIGITS → (hopLoop bc t id k res = res ∨
      ∃ (l : Fin DIGITS) (d : Digit), DIGITS - k ≤ l.val ∧
        (t.rows l d).head? = some (hopLoop bc t id k res)) := by
  induction k with
  | zero => intro res _; left; rfl
  | succ k ih =>
    intro res hk
    rw [hopLoop_succ bc t id k res (level_lt k)]
    have hscan := scan_mem bc t id ⟨DIGITS - (k + 1), level_lt k⟩ (List.finRange BASE) res
    change scanLevel bc t id ⟨DIGITS - (k + 1), level_lt k⟩ res = res ∨ _ at hscan
    split
    · rcases ih (scanLevel bc t id ⟨DIGITS - (k + 1), level_lt k⟩ res) (by omega) with h1 | h1
      · rw [h1]
        rcases hscan with h2 | ⟨d, _, h2⟩
        · exact Or.inl h2
        · exact Or.inr ⟨_, d, Nat.le_refl _, h2⟩
      · obtain ⟨l, d, hl, h2⟩ := h1
        exact Or.inr ⟨l, d, by omega, h2⟩
    · rcases hscan with h2 | ⟨d, _, h2⟩
      · exact Or.inl h2
      · exact Or.inr ⟨_, d, Nat.le_refl _, h2⟩

theorem hopLoop_best (bc : ID → ID → ID → Bool) (hs : StrictChoice bc) (t : RoutingTable)
    (id : ID) (k : Nat) : ∀ res : Node, k ≤ DIGITS → res.Id = t.localNode.Id →
    (hopLoop bc t id k res).Id ≠ t.localNode.Id →
    ∃ (l : Fin DIGITS) (d : Digit), DIGITS - k ≤ l.val ∧
      (t.rows l d).head? = some (hopLoop bc t id k res) ∧
      ∀ (d1 : Digit) (c : Node), (t.rows l d1).head? = some c →
        bc id c.Id (hopLoop bc t id k res).Id = false := by
  induction k with
  | zero =>
    intro res _ hres hne
    exact absurd hres hne
  | succ k ih =>
    intro res hk hres hne
    rw [hopLoop_succ bc t id k res (level_lt k)] at hne ⊢
    have hscan := scan_mem bc t id ⟨DIGITS - (k + 1), level_lt k⟩ (List.finRange BASE) res
    change scanLevel bc t id ⟨DIGITS - (k + 1), level_lt k⟩ res = res ∨ _ at hscan
    by_cases hid : (scanLevel bc t id ⟨DIGITS - (k + 1), level_lt k⟩ res).Id = t.localNode.Id
    · rw [if_pos hid] at hne ⊢
      obtain ⟨l, d, hl, h2, h3⟩ := ih _ (by omega) hid hne
      exact ⟨l, d, by omega, h2, h3⟩
    · rw [if_neg hid]
      rcases hscan with h2 | ⟨d, _, h2⟩
      · rw [h2] at hid
        exact absurd hres hid
      · refine ⟨_, d, Nat.le_refl _, h2, ?_⟩
        intro d1 c hc
        exact scan_best bc hs t id _ (List.finRange BASE) res d1 c (List.mem_finRange _) hc

theorem hopLoop_local_iff (bc : ID → ID → ID → Bool) (hs : StrictChoice bc) (me : Node)
    (t : RoutingTable) (hi : Inv me t) (id : ID) (k : Nat) : k ≤ DIGITS →
    (hopLoop bc t id k me = me ↔
      ∀ l : Fin DIGITS, DIGITS - k ≤ l.val → ∀ (d : Digit) (c : Node),
        (t.rows l d).head? = some c → bc id c.Id me.Id = false) := by
  induction k with
  | zero =>
    intro _
    constructor
    · intro _ l hl
      have := l.isLt
      omega
    · intro _
      rfl
  | succ k ih =>
    intro hk
    rw [hopLoop_succ bc t id k me (level_lt k)]
    have hscan := scan_mem bc t id ⟨DIGITS - (k + 1), level_lt k⟩ (List.finRange BASE) me
    change scanLevel bc t id ⟨DIGITS - (k + 1), level_lt k⟩ me = me ∨ _ at hscan
    constructor
    · intro hres l hl d c hc
      by_cases hid : (scanLevel bc t id ⟨DIGITS - (k + 1), level_lt k⟩ me).Id = t.localNode.Id
      · rw [if_pos hid] at hres
        have hme : scanLevel bc t id ⟨DIGITS - (k + 1), level_lt k⟩ me = me := by
          rcases hscan with h2 | ⟨d2, _, h2⟩
          · exact h2
          · exact entry_eq_local_of_id me t hi _ _ d2 (List.mem_of_mem_head? h2)
              (by rw [hid, hi.loc])
        rw [hme] at hres
        by_cases hlev : l.val = DIGITS - (k + 1)
        · have hl2 : l = ⟨DIGITS - (k + 1), level_lt k⟩ := Fin.ext hlev
          subst hl2
          rw [Bool.eq_false_iff]
          intro hb
          have := scan_moves bc hs t id _ (List.finRange BASE) me d c (List.mem_finRange _) hc hb
          change bc id (scanLevel bc t id ⟨DIGITS - (k + 1), level_lt k⟩ me).Id me.Id = true at this
          rw [hme, hs.irrefl] at this
          cases this
        · exact (ih (by omega)).mp hres l (by omega) d c hc
      · rw [if_neg hid] at hres
        rw [hres, hi.loc] at hid
        exact absurd rfl hid
    · intro hall
      have hme : scanLevel bc t id ⟨DIGITS - (k + 1), level_lt k⟩ me = me :=
        scan_stay bc t id _ (List.finRange BASE) me
          (fun d _ c hc => hall ⟨DIGITS - (k + 1), level_lt k⟩ (Nat.le_refl _) d c hc)
      rw [hme, hi.loc, if_pos rfl]
      exact (ih (by omega)).mpr (fun l hl d c hc => hall l (by omega) d c hc)

/-! ## The comparison `BetterChoice` is a strict order -/

theorem BetterChoice_iff (target a b : ID) :
    BetterChoice target a b = true ↔
      SharedPrefixLength b target < SharedPrefixLength a target ∨
      (SharedPrefixLength a target = SharedPrefixLength b target ∧
        natDist (bigOf (a.digits.drop (SharedPrefixLength a target)))
            (bigOf (target.digits.drop (SharedPrefixLength a target))) <
          natDist (bigOf (b.digits.drop (SharedPrefixLength a target)))
            (bigOf (target.digits.drop (SharedPrefixLength a target)))) := by
  unfold BetterChoice
  simp only
  by_cases h1 : SharedPrefixLength b target < SharedPrefixLength a target
  · simp [h1]
  · by_cases h2 : SharedPrefixLength a target < SharedPrefixLength b target
    · simp only [h1, h2, if_false, if_true, false_or]
      constructor
      · intro h; cases h
      · intro h; omega
    · have heq : SharedPrefixLength a target = SharedPrefixLength b target := by omega
      simp [h1, h2, heq]

theorem StrictChoice_BetterChoice : StrictChoice BetterChoice where
  irrefl := by
    intro target a
    rw [Bool.eq_false_iff]
    intro h
    rw [BetterChoice_iff] at h
    omega
  trans := by
    intro target a b c h1 h2
    rw [BetterChoice_iff] at h1 h2 ⊢
    rcases h1 with h1 | ⟨e1, h1⟩
    · rcases h2 with h2 | ⟨e2, _⟩
      · left; omega
      · left; omega
    · rcases h2 with h2 | ⟨e2, h2⟩
      · left; omega
      · right
        rw [← e1] at h2
        exact ⟨e1.trans e2, lt_trans h1 h2⟩

theorem exHop_reachable : Reachable Closer exLocal exHop :=
  reachable_getD Closer exLocal _ (by decide)

/-! ## The next hop -/

theorem sharedDigits_min : ∀ xs ys zs : List Digit,
    min (sharedDigits xs ys) (sharedDigits ys zs) ≤ sharedDigits xs zs
  | [], _, _ => by simp [sharedDigits]
  | _ :: _, [], _ => by simp [sharedDigits]
  | _ :: _, _ :: _, [] => by simp [sharedDigits]
  | x :: xs, y :: ys, z :: zs => by
    simp only [sharedDigits]
    have ih := sharedDigits_min xs ys zs
    by_cases h1 : x = y
    · by_cases h2 : y = z
      · have h3 : x = z := h1.trans h2
        simp only [h1, h2, if_true]
        rw [min_le_iff] at ih ⊢
        omega
      · have h3 : x ≠ z := fun h => h2 (h1 ▸ h)
        simp [h1, h2]
    · simp [h1]

theorem SharedPrefixLength_min (a b c : ID) :
    min (SharedPrefixLength a b) (SharedPrefixLength b c) ≤ SharedPrefixLength a c :=
  sharedDigits_min a.digits b.digits c.digits

theorem GetNextHop_mem (bc : ID → ID → ID → Bool) (t : RoutingTable) (target : ID) :
    GetNextHop bc t target = t.localNode ∨
      ∃ (l : Fin DIGITS) (d : Digit), SharedPrefixLength t.localNode.Id target ≤ l.val ∧
        (t.rows l d).head? = some (GetNextHop bc t target) := by
  have hle := SharedPrefixLength_le t.localNode.Id target
  rcases hopLoop_mem bc t target (DIGITS - SharedPrefixLength t.localNode.Id target)
    t.localNode (by omega) with h | ⟨l, d, hl, h⟩
  · exact Or.inl h
  · exact Or.inr ⟨l, d, by omega, h⟩

theorem GetNextHop_id_ne (bc : ID → ID → ID → Bool) (me : Node) (t : RoutingTable)
    (hi : Inv me t) (target : ID) (hne : GetNextHop bc t target ≠ t.localNode) :
    (GetNextHop bc t target).Id ≠ t.localNode.Id := by
  intro hid
  rcases GetNextHop_mem bc t target with h | ⟨l, d, _, h⟩
  · exact hne h
  · apply hne
    rw [hi.loc] at hid ⊢
    exact entry_eq_local_of_id me t hi _ l d (List.mem_of_mem_head? h) hid

/-- C13: for a reachable routing table and a target ID, `GetNextHop(target)`
returns the local node if and only if at every level `l` with
`SharedPrefixLength(local.Id, target) <= l < DIGITS` no first element `c` of
a slot of level `l` satisfies `better_choice(target, c.Id, local.Id)`; and
`GetNextHop(local.Id)` is the local node.  The comparison is any one that is
irreflexive and transitive. -/
theorem GetNextHop_local_iff (bc : ID → ID → ID → Bool) (hs : StrictChoice bc)
    (closer : ID → ID → ID → Bool) (me : Node) (t : RoutingTable)
    (h : Reachable closer me t) (target : ID) :
    (GetNextHop bc t target = t.localNode ↔
      ∀ l : Fin DIGITS, SharedPrefixLength t.localNode.Id target ≤ l.val →
        ∀ (d : Digit) (c : Node), (t.rows l d).head? = some c →
          bc target c.Id t.localNode.Id = false) ∧
    GetNextHop bc t t.localNode.Id = t.localNode := by
  have hi := Inv_reachable closer me t h
  have hle := SharedPrefixLength_le t.localNode.Id target
  constructor
  · unfold GetNextHop
    rw [hi.loc] at hle ⊢
    rw [hopLoop_local_iff bc hs me t hi target _ (by omega)]
    have hk : DIGITS - (DIGITS - SharedPrefixLength me.Id target) =
        SharedPrefixLength me.Id target := by omega
    rw [hk]
  · unfold GetNextHop
    rw [SharedPrefixLength_self, Nat.sub_self]
    rfl

theorem GetNextHop_local_iff_witness :
    StrictChoice BetterChoice ∧ Reachable Closer exLocal exHop ∧
    ((GetNextHop BetterChoice exHop (idOf [0, 1]) = exHop.localNode ↔
      ∀ l : Fin DIGITS, SharedPrefixLength exHop.localNode.Id (idOf [0, 1]) ≤ l.val →
        ∀ (d : Digit) (c : Node), (exHop.rows l d).head? = some c →
          BetterChoice (idOf [0, 1]) c.Id exHop.localNode.Id = false) ∧
    GetNextHop BetterChoice exHop exHop.localNode.Id = exHop.localNode) :=
  ⟨StrictChoice_BetterChoice, exHop_reachable,
    GetNextHop_local_iff BetterChoice StrictChoice_BetterChoice Closer exLocal exHop
      exHop_reachable (idOf [0, 1])⟩

theorem sharedDigits_getElem?_eq : ∀ (xs ys : List Digit) (i : Nat),
    i < sharedDigits xs ys → xs[i]? = ys[i]?
  | [], _, _, h => by simp [sharedDigits] at h
  | _ :: _, [], _, h => by simp [sharedDigits] at h
  | x :: xs, y :: ys, i, h => by
    simp only [sharedDigits] at h
    by_cases hxy : x = y
    · rw [if_pos hxy] at h
      cases i with
      | zero => simp [hxy]
      | succ i =>
        simp only [List.getElem?_cons_succ]
        exact sharedDigits_getElem?_eq xs ys i (by omega)
    · rw [if_neg hxy] at h
      omega

theorem SharedPrefixLength_get_eq (a b : ID) (i : Fin DIGITS)
    (h : i.val < SharedPrefixLength a b) : a.get i = b.get i := by
  have h1 := sharedDigits_getElem?_eq a.digits b.digits i.val h
  rw [ID.get_eq_get?, ID.get_eq_get?] at h1
  exact Option.some.inj h1

theorem SharedPrefixLength_succ_le (a b : ID) (l : Fin DIGITS)
    (h : l.val ≤ SharedPrefixLength a b) (hd : a.get l = b.get l) :
    l.val + 1 ≤ SharedPrefixLength a b := by
  by_contra hcon
  have heq : SharedPrefixLength a b = l.val := by omega
  have hlt : SharedPrefixLength a b < DIGITS := by rw [heq]; exact l.isLt
  have hne := SharedPrefixLength_get_ne a b hlt
  apply hne
  have hl : (⟨SharedPrefixLength a b, hlt⟩ : Fin DIGITS) = l := Fin.ext heq
  rw [hl]
  exact hd

theorem PrefixFirst_BetterChoice : PrefixFirst BetterChoice where
  longer := by
    intro target a b h
    rw [BetterChoice_iff]
    exact Or.inl h
  notShorter := by
    intro target a b h
    rw [BetterChoice_iff] at h
    rcases h with h | h
    · exact Nat.le_of_lt h
    · exact Nat.le_of_eq h.1.symm

theorem scan_prefix_mono (bc : ID → ID → ID → Bool) (hp : PrefixFirst bc) (t : RoutingTable)
    (id : ID) (l : Fin DIGITS) (xs : List Digit) (res : Node) :
    SharedPrefixLength res.Id id ≤
      SharedPrefixLength (xs.foldl (scanStep bc t id l) res).Id id := by
  induction xs generalizing res with
  | nil => exact Nat.le_refl _
  | cons x xs ih =>
    rw [List.foldl_cons]
    refine le_trans ?_ (ih (scanStep bc t id l res x))
    rcases scanStep_cases bc t id l res x with h1 | h1
    · rw [h1.1]
    · exact hp.notShorter id _ _ h1.2

theorem scan_prefix_reaches (bc : ID → ID → ID → Bool) (hp : PrefixFirst bc)
    (t : RoutingTable) (id : ID) (l : Fin DIGITS) (xs : List Digit) (res : Node) (d : Digit)
    (c : Node) (hd : d ∈ xs) (hc : (t.rows l d).head? = some c) :
    SharedPrefixLength c.Id id ≤
      SharedPrefixLength (xs.foldl (scanStep bc t id l) res).Id id := by
  induction xs generalizing res with
  | nil => cases hd
  | cons x xs ih =>
    rw [List.foldl_cons]
    rcases List.mem_cons.mp hd with rfl | hmem
    · refine le_trans ?_ (scan_prefix_mono bc hp t id l xs (scanStep bc t id l res d))
      rcases scanStep_cases bc t id l res d with h1 | h1
      · rw [h1.1]
        by_contra hcon
        have := hp.longer id c.Id res.Id (by omega)
        rw [h1.2 c hc] at this
        cases this
      · rw [hc, Option.some.injEq] at h1
        rw [← h1.1]
    · exact ih _ hmem

theorem target_slot_head (me : Node) (t : RoutingTable) (hi : Inv me t) (target : ID)
    (l : Fin DIGITS) (hl : SharedPrefixLength me.Id target = l.val) (c : Node)
    (hc : c ∈ t.rows l (target.get l)) :
    l.val + 1 ≤ SharedPrefixLength c.Id target := by
  have hd : target.get l ≠ me.Id.get l := by
    intro heq
    have := SharedPrefixLength_succ_le me.Id target l (Nat.le_of_eq hl.symm) heq.symm
    omega
  have hp := hi.placed l _ hd c hc
  apply SharedPrefixLength_succ_le c.Id target l _ hp.2
  have hmin := SharedPrefixLength_min c.Id me.Id target
  rw [hp.1, hl, min_self] at hmin
  exact hmin

theorem GetNextHop_gains_digit (bc : ID → ID → ID → Bool) (hp : PrefixFirst bc) (me : Node)
    (t : RoutingTable) (hi : Inv me t) (target : ID) (l : Fin DIGITS)
    (hl : SharedPrefixLength t.localNode.Id target = l.val)
    (hslot : t.rows l (target.get l) ≠ []) :
    SharedPrefixLength t.localNode.Id target + 1 ≤
      SharedPrefixLength (GetNextHop bc t target).Id target := by
  obtain ⟨c, rest, hcs⟩ := List.exists_cons_of_ne_nil hslot
  have hhead : (t.rows l (target.get l)).head? = some c := by rw [hcs]; rfl
  have hcmem : c ∈ t.rows l (target.get l) := by rw [hcs]; simp
  have hl1 := hl
  rw [hi.loc] at hl1
  have hcp := target_slot_head me t hi target l hl1 c hcmem
  have hk : DIGITS - SharedPrefixLength t.localNode.Id target = (DIGITS - 1 - l.val) + 1 := by
    have := l.isLt
    omega
  have hlev : (⟨DIGITS - ((DIGITS - 1 - l.val) + 1), level_lt _⟩ : Fin DIGITS) = l := by
    apply Fin.ext
    have := l.isLt
    simp only
    omega
  unfold GetNextHop
  rw [hk, hopLoop_succ bc t target _ t.localNode (level_lt _), hlev]
  have hreach := scan_prefix_reaches bc hp t target l (List.finRange BASE) t.localNode
    (target.get l) c (List.mem_finRange _) hhead
  change _ ≤ SharedPrefixLength (scanLevel bc t target l t.localNode).Id target at hreach
  have hne : (scanLevel bc t target l t.localNode).Id ≠ t.localNode.Id := by
    intro heq
    rw [heq, hl] at hreach
    omega
  rw [if_neg hne, hl]
  omega

theorem GetNextHop_no_gain (bc : ID → ID → ID → Bool) (me : Node) (t : RoutingTable)
    (hi : Inv me t) (target : ID) (l : Fin DIGITS)
    (hl : SharedPrefixLength t.localNode.Id target = l.val)
    (hslot : t.rows l (target.get l) = [])
    (hne : GetNextHop bc t target ≠ t.localNode) :
    SharedPrefixLength (GetNextHop bc t target).Id target ≤
      SharedPrefixLength t.localNode.Id target := by
  by_contra hcon
  have hid := GetNextHop_id_ne bc me t hi target hne
  rw [hi.loc] at hl hid hcon
  have hdig : (GetNextHop bc t target).Id.get l = target.get l :=
    SharedPrefixLength_get_eq _ _ l (by omega)
  have hloc : me.Id.get l ≠ target.get l := by
    intro heq
    have := SharedPrefixLength_succ_le me.Id target l (Nat.le_of_eq hl.symm) heq
    omega
  rcases GetNextHop_mem bc t target with h1 | ⟨l1, d1, hl1, h1⟩
  · exact hne h1
  · have hmem := List.mem_of_mem_head? h1
    have hp := present_in_target_slot me t hi _ l1 d1 hmem hid
    rw [hi.loc, hl] at hl1
    by_cases hlev : l1 = l
    · subst hlev
      rw [← hp.2, hdig, hslot] at hmem
      cases hmem
    · have hlt : l.val < SharedPrefixLength (GetNextHop bc t target).Id me.Id := by
        rw [hp.1]
        have : l1.val ≠ l.val := fun h => hlev (Fin.ext h)
        omega
      have := SharedPrefixLength_get_eq _ _ l hlt
      rw [hdig] at this
      exact hloc this.symm

/-- C14, as stated, fails: in the table of the local node `000...0` that holds
the node `exR` with the ID `4000...0` and has nothing in the slot of the
target's digit, the next hop for the target `3000...0` is `exR`, which is not
the local node, yet `exR` shares no more leading digits with the target than
the local node does (none). -/
theorem GetNextHop_no_new_digit :
    Reachable Closer exLocal exHop ∧
    SharedPrefixLength exHop.localNode.Id exTarget = (0 : Fin DIGITS).val ∧
    exHop.rows 0 (exTarget.get 0) = [] ∧
    GetNextHop BetterChoice exHop exTarget = exR ∧ exR ≠ exHop.localNode ∧
    ¬ (SharedPrefixLength exR.Id exTarget ≥
      SharedPrefixLength exHop.localNode.Id exTarget + 1) :=
  ⟨exHop_reachable, by decide, by decide, by decide, by decide, by decide⟩

/-- C14, amended: for a reachable routing table and a target ID, if
`GetNextHop(target)` returns a node `r` other than the local node, then
`SharedPrefixLength(r.Id, target) >= SharedPrefixLength(local.Id, target)`.
With `l = SharedPrefixLength(local.Id, target)`: when the slot
`rows[l][target[l]]` is empty the two lengths are equal, the hop resolves no
digit; when that slot is not empty the hop resolves one more digit,
`SharedPrefixLength(r.Id, target) >= SharedPrefixLength(local.Id, target) + 1`,
for every comparison in which the greater shared prefix with the target
wins. -/
theorem GetNextHop_keeps_digits (bc : ID → ID → ID → Bool) (closer : ID → ID → ID → Bool)
    (me : Node) (t : RoutingTable) (h : Reachable closer me t) (target : ID)
    (hne : GetNextHop bc t target ≠ t.localNode) :
    SharedPrefixLength (GetNextHop bc t target).Id target ≥
      SharedPrefixLength t.localNode.Id target ∧
    ∀ l : Fin DIGITS, SharedPrefixLength t.localNode.Id target = l.val →
      (t.rows l (target.get l) = [] →
        SharedPrefixLength (GetNextHop bc t target).Id target =
          SharedPrefixLength t.localNode.Id target) ∧
      (PrefixFirst bc → t.rows l (target.get l) ≠ [] →
        SharedPrefixLength (GetNextHop bc t target).Id target ≥
          SharedPrefixLength t.localNode.Id target + 1) := by
  have hi := Inv_reachable closer me t h
  have hid := GetNextHop_id_ne bc me t hi target hne
  have hge : SharedPrefixLength (GetNextHop bc t target).Id target ≥
      SharedPrefixLength t.localNode.Id target := by
    rcases GetNextHop_mem bc t target with h1 | ⟨l, d, hl, h1⟩
    · exact absurd h1 hne
    · have hp := present_in_target_slot me t hi _ l d (List.mem_of_mem_head? h1)
        (by rw [← hi.loc]; exact hid)
      have hmin := SharedPrefixLength_min (GetNextHop bc t target).Id me.Id target
      rw [hi.loc] at hl ⊢
      rw [hp.1] at hmin
      have := Nat.le_min.mpr ⟨hl, Nat.le_refl (SharedPrefixLength me.Id target)⟩
      exact le_trans this hmin
  refine ⟨hge, ?_⟩
  intro l hl
  constructor
  · intro hslot
    exact Nat.le_antisymm (GetNextHop_no_gain bc me t hi target l hl hslot hne) hge
  · intro hp hslot
    exact GetNextHop_gains_digit bc hp me t hi target l hl hslot

theorem GetNextHop_keeps_digits_witness :
    Reachable Closer exLocal exHop ∧
    GetNextHop BetterChoice exHop exTargetA ≠ exHop.localNode ∧
    PrefixFirst BetterChoice ∧ exHop.rows 0 (exTargetA.get 0) ≠ [] ∧
    (SharedPrefixLength (GetNextHop BetterChoice exHop exTargetA).Id exTargetA ≥
      SharedPrefixLength exHop.localNode.Id exTargetA ∧
    ∀ l : Fin DIGITS, SharedPrefixLength exHop.localNode.Id exTargetA = l.val →
      (exHop.rows l (exTargetA.get l) = [] →
        SharedPrefixLength (GetNextHop BetterChoice exHop exTargetA).Id exTargetA =
          SharedPrefixLength exHop.localNode.Id exTargetA) ∧
      (PrefixFirst BetterChoice → exHop.rows l (exTargetA.get l) ≠ [] →
        SharedPrefixLength (GetNextHop BetterChoice exHop exTargetA).Id exTargetA ≥
          SharedPrefixLength exHop.localNode.Id exTargetA + 1)) :=
  ⟨exHop_reachable, by decide, PrefixFirst_BetterChoice, by decide,
    GetNextHop_keeps_digits BetterChoice Closer exLocal exHop exHop_reachable exTargetA
      (by decide)⟩

/-- C18: for a reachable routing table and a target ID, the node `r` returned
by `GetNextHop(target)` is the local node or the first element of a slot of
the table, and if `r` is not the local node then it is the first element of a
slot of a level `l*` at or after `SharedPrefixLength(local.Id, target)` at
which no first element `c` of a slot satisfies
`better_choice(target, c.Id, r.Id)`.  The comparison is any one that is
irreflexive and transitive. -/
theorem GetNextHop_best_of_level (bc : ID → ID → ID → Bool) (hs : StrictChoice bc)
    (closer : ID → ID → ID → Bool) (me : Node) (t : RoutingTable)
    (h : Reachable closer me t) (target : ID) :
    (GetNextHop bc t target = t.localNode ∨
      ∃ (l : Fin DIGITS) (d : Digit), (t.rows l d).head? = some (GetNextHop bc t target)) ∧
    (GetNextHop bc t target ≠ t.localNode →
      ∃ l : Fin DIGITS, SharedPrefixLength t.localNode.Id target ≤ l.val ∧
        (∃ d : Digit, (t.rows l d).head? = some (GetNextHop bc t target)) ∧
        ∀ (d : Digit) (c : Node), (t.rows l d).head? = some c →
          bc target c.Id (GetNextHop bc t target).Id = false) := by
  have hi := Inv_reachable closer me t h
  constructor
  · rcases GetNextHop_mem bc t target with h1 | ⟨l, d, _, h1⟩
    · exact Or.inl h1
    · exact Or.inr ⟨l, d, h1⟩
  · intro hne
    have hid := GetNextHop_id_ne bc me t hi target hne
    have hle := SharedPrefixLength_le t.localNode.Id target
    obtain ⟨l, d, hl, h1, h2⟩ := hopLoop_best bc hs t target
      (DIGITS - SharedPrefixLength t.localNode.Id target) t.localNode (by omega) rfl hid
    exact ⟨l, by omega, ⟨d, h1⟩, h2⟩

theorem GetNextHop_best_of_level_witness :
    StrictChoice BetterChoice ∧ Reachable Closer exLocal exHop ∧
    ((GetNextHop BetterChoice exHop exTarget = exHop.localNode ∨
      ∃ (l : Fin DIGITS) (d : Digit),
        (exHop.rows l d).head? = some (GetNextHop BetterChoice exHop exTarget)) ∧
    (GetNextHop BetterChoice exHop exTarget ≠ exHop.localNode →
      ∃ l : Fin DIGITS, SharedPrefixLength exHop.localNode.Id exTarget ≤ l.val ∧
        (∃ d : Digit, (exHop.rows l d).head? = some (GetNextHop BetterChoice exHop exTarget)) ∧
        ∀ (d : Digit) (c : Node), (exHop.rows l d).head? = some c →
          BetterChoice exTarget c.Id (GetNextHop BetterChoice exHop exTarget).Id = false)) :=
  ⟨StrictChoice_BetterChoice, exHop_reachable,
    GetNextHop_best_of_level BetterChoice StrictChoice_BetterChoice Closer exLocal exHop
      exHop_reachable exTarget⟩

/-! ## `Add` followed by `Remove` -/

theorem Remove_filter (me : Node) (t : RoutingTable) (hi : Inv me t) (node e : Node)
    (l : Fin DIGITS) (hl : SharedPrefixLength node.Id t.localNode.Id = l.val)
    (he : e ∈ t.rows l (node.Id.get l)) (heid : e.Id = node.Id) :
    ∃ b : Bool, Remove t node =
      some (t.setSlot l (node.Id.get l)
        ((t.rows l (node.Id.get l)).filter (fun x => decide (x.Id ≠ node.Id))), b) := by
  have hd : SharedPrefixLength node.Id t.localNode.Id ≠ DIGITS := by
    rw [hl]
    exact Nat.ne_of_lt l.isLt
  obtain ⟨r, hr, ho⟩ := Remove_outcome t node hd
  have hnd := hi.nodup l (node.Id.get l)
  cases ho with
  | absent l1 hl1 hnp =>
    have hll : l1 = l := Fin.ext (hl1.symm.trans hl)
    subst hll
    exact absurd heid (hnp e he)
  | single l1 hl1 e1 hslot he1 =>
    have hll : l1 = l := Fin.ext (hl1.symm.trans hl)
    subst hll
    refine ⟨false, ?_⟩
    rw [hr, hslot]
    simp [he1]
  | found l1 hl1 j e1 hj he1 hlen =>
    have hll : l1 = l := Fin.ext (hl1.symm.trans hl)
    subst hll
    refine ⟨true, ?_⟩
    rw [hr, eraseIdx_eq_filter_id node.Id _ hnd j e1 hj he1]

theorem sortSlot_append_filter (closer : ID → ID → ID → Bool) (loc : ID) (n : Node) :
    ∀ slot : List Node, slot.length ≤ 2 → SlotSorted closer loc slot →
    (∀ a ∈ slot, ∀ b ∈ slot, closer loc a.Id b.Id = true → closer loc b.Id a.Id = false) →
    (∀ e ∈ slot, e.Id ≠ n.Id) →
    (sortSlot closer loc (slot ++ [n])).filter (fun x => decide (x.Id ≠ n.Id)) = slot
  | [], _, _, _, _ => by simp [sortSlot_one]
  | [a], _, _, _, hnp => by
    have ha := hnp a (by simp)
    simp only [List.singleton_append, sortSlot_two]
    split <;> simp [ha]
  | [a, b], _, hs, hasym, hnp => by
    have ha := hnp a (by simp)
    have hb := hnp b (by simp)
    have hab : closer loc a.Id b.Id = true := by
      unfold SlotSorted at hs
      simp only [List.pairwise_cons, List.mem_singleton, forall_eq] at hs
      exact hs.1
    have hba := hasym a (by simp) b (by simp) hab
    simp only [List.cons_append, List.nil_append, sortSlot_three, hab, hba, if_true,
      Bool.false_eq_true, if_false]
    split_ifs <;> simp [ha, hb]
  | _ :: _ :: _ :: _, h, _, _, _ => by simp at h

theorem Closer_irrefl (loc a : ID) : Closer loc a a = false := by
  have h : ∀ ts xs : List Digit, closerDigits ts xs xs = false := by
    intro ts xs
    induction xs generalizing ts with
    | nil => cases ts <;> rfl
    | cons x xs ih =>
      cases ts with
      | nil => rfl
      | cons t ts => simp [closerDigits, ih]
  simp [Closer, h]

/-- C19: `Add` followed by `Remove` is a round trip: for a reachable routing
table `t` and a node `n` for which `Add(n)` returns `(true, nil)`, the call
`Remove(n)` that follows returns, and yields a table whose every slot holds
the same entries in the same order as in `t`.  The comparison `closer` is any
one that is irreflexive, and total and transitive on the IDs of one slot. -/
theorem Add_then_Remove (closer : ID → ID → ID → Bool) (ho : SlotOrder closer)
    (hirr : ∀ loc a : ID, closer loc a a = false) (me : Node) (t t1 : RoutingTable)
    (h : Reachable closer me t) (n : Node) (ha : Add closer t n = some (t1, true, none)) :
    ∃ (t2 : RoutingTable) (wasRemoved : Bool), Remove t1 n = some (t2, wasRemoved) ∧
      t2.localNode = t.localNode ∧
      ∀ (l : Fin DIGITS) (d : Digit), t2.rows l d = t.rows l d := by
  have hi := Inv_reachable closer me t h
  have hi1 := Inv_Add closer me t hi n _ ha
  obtain ⟨ops, hops⟩ := h
  have hsorted := Sorted_run closer ho me ops _ t (Inv_new me) (Sorted_new closer me) hops
  have hout := Add_inv closer t n _ ha
  generalize hr : (t1, true, (none : Option Node)) = r at hout
  cases hout with
  | unchanged => simp at hr
  | evict l last hl hnp hlen hlast hc =>
    simp only [Prod.mk.injEq, true_and] at hr
    have hperm := sortSlot_perm closer t.localNode.Id ((t.rows l (n.Id.get l)).set 2 n)
      (by rw [List.length_set]; exact hi.bound l _)
    have hlen2 : 2 < (sortSlot closer t.localNode.Id ((t.rows l (n.Id.get l)).set 2 n)).length := by
      rw [hperm.length_eq, List.length_set]
      exact hlen
    rw [List.getElem?_eq_getElem hlen2] at hr
    cases hr.2
  | room l hl hnp hlen =>
    simp only [Prod.mk.injEq, and_true] at hr
    subst hr
    have hl1 := hl
    rw [hi.loc] at hl1
    have hd := target_ne_own me n l hl1
    have hperm := sortSlot_perm closer t.localNode.Id (t.rows l (n.Id.get l) ++ [n])
      (by simp; omega)
    have hmem : n ∈ (t.setSlot l (n.Id.get l)
        (sortSlot closer t.localNode.Id (t.rows l (n.Id.get l) ++ [n]))).rows l (n.Id.get l) := by
      rw [setSlot_rows_same]
      exact hperm.mem_iff.mpr (by simp)
    obtain ⟨b, hb⟩ := Remove_filter me _ hi1 n n l hl hmem rfl
    refine ⟨_, b, hb, rfl, ?_⟩
    have hasym : ∀ a ∈ t.rows l (n.Id.get l), ∀ b ∈ t.rows l (n.Id.get l),
        closer t.localNode.Id a.Id b.Id = true → closer t.localNode.Id b.Id a.Id = false := by
      intro a hma b hmb hab
      rw [Bool.eq_false_iff]
      intro hba
      have hsa := sameSlot_of_placed me.Id a.Id b.Id l _ (hi.placed l _ hd a hma)
        (hi.placed l _ hd b hmb)
      have hsb := sameSlot_of_placed me.Id b.Id a.Id l _ (hi.placed l _ hd b hmb)
        (hi.placed l _ hd a hma)
      rw [hi.loc] at hab hba
      have := ho.trans me.Id a.Id b.Id a.Id hsa hsb hab hba
      rw [hirr] at this
      cases this
    have hfil := sortSlot_append_filter closer t.localNode.Id n (t.rows l (n.Id.get l)) hlen
      (hsorted l (n.Id.get l)) hasym hnp
    intro l1 d1
    by_cases hc : l1 = l ∧ d1 = n.Id.get l
    · obtain ⟨h1, h2⟩ := hc
      subst h1 h2
      rw [setSlot_rows_same, setSlot_rows_same]
      exact hfil
    · rw [setSlot_rows_other _ _ _ _ _ _ hc, setSlot_rows_other _ _ _ _ _ _ hc]

theorem Add_then_Remove_witness :
    SlotOrder Closer ∧ (∀ loc a : ID, Closer loc a a = false) ∧
    Reachable Closer exLocal exSingle ∧
    Add Closer exSingle exA = some (exSingle.setSlot 0 (exA.Id.get 0)
      (sortSlot Closer exSingle.localNode.Id (exSingle.rows 0 (exA.Id.get 0) ++ [exA])),
      true, none) ∧
    ∃ (t2 : RoutingTable) (wasRemoved : Bool),
      Remove (exSingle.setSlot 0 (exA.Id.get 0)
        (sortSlot Closer exSingle.localNode.Id (exSingle.rows 0 (exA.Id.get 0) ++ [exA])))
        exA = some (t2, wasRemoved) ∧
      t2.localNode = exSingle.localNode ∧
      ∀ (l : Fin DIGITS) (d : Digit), t2.rows l d = exSingle.rows l d :=
  have ha := Add_room Closer exSingle exA 0 (by decide) (by decide) (by decide)
  ⟨SlotOrder_Closer, Closer_irrefl, exSingle_reachable, ha,
    Add_then_Remove Closer SlotOrder_Closer Closer_irrefl exLocal exSingle _
      exSingle_reachable exA ha⟩

/-! ## The closest nodes are retained -/

theorem belongsTo_iff (me : Node) (l : Fin DIGITS) (d : Digit) (n : Node) :
    belongsTo me l d n = true ↔ SharedPrefixLength n.Id me.Id = l.val ∧ n.Id.get l = d := by
  simp [belongsTo]

theorem Add_rows_other (closer : ID → ID → ID → Bool) (t : RoutingTable) (x : Node)
    (r : RoutingTable × Bool × Option Node) (h : Add closer t x = some r)
    (l : Fin DIGITS) (d : Digit)
    (hnb : ¬ (SharedPrefixLength x.Id t.localNode.Id = l.val ∧ x.Id.get l = d)) :
    r.1.rows l d = t.rows l d := by
  have ho := Add_inv closer t x r h
  cases ho with
  | unchanged => rfl
  | room l1 hl hnp hlen =>
    apply setSlot_rows_other
    rintro ⟨h1, h2⟩
    subst h1
    exact hnb ⟨hl, h2.symm⟩
  | evict l1 last hl hnp hlen hlast hc =>
    apply setSlot_rows_other
    rintro ⟨h1, h2⟩
    subst h1
    exact hnb ⟨hl, h2.symm⟩

theorem Retained_new (closer : ID → ID → ID → Bool) (me : Node) (l : Fin DIGITS) (d : Digit)
    (hd : d ≠ me.Id.get l) : Retained closer me l d (NewRoutingTable me) [] where
  among := by intro e he; simp [NewRoutingTable, hd] at he
  all := by intro _ n hn; cases hn
  closest := by intro e he; simp [NewRoutingTable, hd] at he

theorem list_three : ∀ s : List Node, 2 < s.length → s.length ≤ SLOTSIZE →
    ∃ a b c : Node, s = [a, b, c]
  | [], h, _ => by simp at h
  | [_], h, _ => by simp at h
  | [_, _], h, _ => by simp at h
  | [a, b, c], _, _ => ⟨a, b, c, rfl⟩
  | _ :: _ :: _ :: _ :: _, _, h => by simp [SLOTSIZE] at h

theorem Retained_Add (closer : ID → ID → ID → Bool) (ho : SlotOrder closer) (me : Node)
    (l : Fin DIGITS) (d : Digit) (hd : d ≠ me.Id.get l) (t : RoutingTable) (ns : List Node)
    (hi : Inv me t) (hs : Sorted closer t) (hq : Retained closer me l d t ns) (x : Node)
    (r : RoutingTable × Bool × Option Node) (h : Add closer t x = some r) :
    Retained closer me l d r.1 (ns ++ [x]) := by
  by_cases hbx : SharedPrefixLength x.Id t.localNode.Id = l.val ∧ x.Id.get l = d
  swap
  · have hrows := Add_rows_other closer t x r h l d hbx
    rw [hi.loc] at hbx
    have hxb : belongsTo me l d x = false := by
      rw [Bool.eq_false_iff, Ne, belongsTo_iff]
      exact hbx
    refine ⟨?_, ?_, ?_⟩
    · intro e he
      rw [hrows] at he
      exact List.mem_append_left _ (hq.among e he)
    · intro hlen n hn hb
      rw [hrows] at hlen ⊢
      rcases List.mem_append.mp hn with hn1 | hn1
      · exact hq.all hlen n hn1 hb
      · rw [List.mem_singleton] at hn1
        subst hn1
        rw [hxb] at hb
        cases hb
    · intro e he n hn hb hne
      rw [hrows] at he hne
      rcases List.mem_append.mp hn with hn1 | hn1
      · exact hq.closest e he n hn1 hb hne
      · rw [List.mem_singleton] at hn1
        subst hn1
        rw [hxb] at hb
        cases hb
  · obtain ⟨hl, hxd⟩ := hbx
    subst hxd
    have hxb : belongsTo me l (x.Id.get l) x = true := by
      rw [belongsTo_iff, ← hi.loc]
      exact ⟨hl, rfl⟩
    have hpl := hi.placed l _ hd
    have hsame : ∀ a b : Node, belongsTo me l (x.Id.get l) a = true →
        belongsTo me l (x.Id.get l) b = true → SameSlot me.Id a.Id b.Id := by
      intro a b ha hb
      exact sameSlot_of_placed me.Id a.Id b.Id l _ ((belongsTo_iff _ _ _ _).mp ha)
        ((belongsTo_iff _ _ _ _).mp hb)
    have hbel : ∀ e ∈ t.rows l (x.Id.get l), belongsTo me l (x.Id.get l) e = true :=
      fun e he => (belongsTo_iff _ _ _ _).mpr (hpl e he)
    by_cases hp : ∃ e ∈ t.rows l (x.Id.get l), e.Id = x.Id
    · rw [Add_present closer t x l hl hp] at h
      cases h
      refine ⟨?_, ?_, ?_⟩
      · intro e he
        exact List.mem_append_left _ (hq.among e he)
      · intro hlen n hn hb
        rcases List.mem_append.mp hn with hn1 | hn1
        · exact hq.all hlen n hn1 hb
        · rw [List.mem_singleton] at hn1
          subst hn1
          exact hp
      · intro e he n hn hb hne
        rcases List.mem_append.mp hn with hn1 | hn1
        · exact hq.closest e he n hn1 hb hne
        · rw [List.mem_singleton] at hn1
          subst hn1
          obtain ⟨e1, he1, heq⟩ := hp
          exact absurd heq (hne e1 he1)
    · have hnp : ∀ e ∈ t.rows l (x.Id.get l), e.Id ≠ x.Id := by
        intro e he heq
        exact hp ⟨e, he, heq⟩
      by_cases hlen : (t.rows l (x.Id.get l)).length ≤ 2
      · rw [Add_room closer t x l hl hnp hlen] at h
        cases h
        have hperm := sortSlot_perm closer t.localNode.Id (t.rows l (x.Id.get l) ++ [x])
          (by simp; omega)
        have hall : ∀ n ∈ ns ++ [x], belongsTo me l (x.Id.get l) n = true →
            ∃ e ∈ sortSlot closer t.localNode.Id (t.rows l (x.Id.get l) ++ [x]),
              e.Id = n.Id := by
          intro n hn hb
          rcases List.mem_append.mp hn with hn1 | hn1
          · obtain ⟨e, he, heq⟩ := hq.all (by show _ < 3; omega) n hn1 hb
            exact ⟨e, hperm.mem_iff.mpr (List.mem_append_left _ he), heq⟩
          · rw [List.mem_singleton] at hn1
            subst hn1
            exact ⟨n, hperm.mem_iff.mpr (by simp), rfl⟩
        refine ⟨?_, ?_, ?_⟩
        · intro e he
          simp only [setSlot_rows_same] at he
          rcases List.mem_append.mp (hperm.mem_iff.mp he) with he1 | he1
          · exact List.mem_append_left _ (hq.among e he1)
          · exact List.mem_append_right _ he1
        · intro _ n hn hb
          simp only [setSlot_rows_same]
          exact hall n hn hb
        · intro e he n hn hb hne
          simp only [setSlot_rows_same] at hne
          obtain ⟨e1, he1, heq⟩ := hall n hn hb
          exact absurd heq (hne e1 he1)
      · have hb3 := hi.bound l (x.Id.get l)
        have hsl := hs l (x.Id.get l)
        rw [hi.loc] at hsl
        obtain ⟨a, b, c, hslot⟩ := list_three _ (by omega) hb3
        · rw [hslot] at hnp hbel hsl
          have hq' := hq
          obtain ⟨hqa, hqb, hqc⟩ := hq'
          rw [hslot] at hqa hqb hqc
          unfold SlotSorted at hsl
          simp only [List.pairwise_cons, List.mem_cons, List.mem_singleton, forall_eq_or_imp,
            forall_eq, List.not_mem_nil, false_implies, implies_true, List.Pairwise.nil,
            and_true] at hsl
          obtain ⟨⟨hab, hac⟩, hbc⟩ := hsl
          have hba := hbel a (by simp)
          have hbb := hbel b (by simp)
          have hbc1 := hbel c (by simp)
          cases hc : closer t.localNode.Id x.Id c.Id
          · have hfar := Add_far closer t x c l hl (by rw [hslot]; simp) (by rw [hslot]; rfl) hc
            rw [hfar] at h
            cases h
            have hcx : closer me.Id c.Id x.Id = true := by
              rcases ho.total me.Id c.Id x.Id (hsame c x hbc1 hxb) (hnp c (by simp)) with h1 | h1
              · exact h1
              · rw [hi.loc] at hc
                rw [hc] at h1
                cases h1
            refine ⟨?_, ?_, ?_⟩
            · intro e he
              exact List.mem_append_left _ (hq.among e he)
            · intro hl3
              rw [hslot] at hl3
              simp [SLOTSIZE] at hl3
            · intro e he n hn hb hne
              rw [hslot] at he hne
              rcases List.mem_append.mp hn with hn1 | hn1
              · exact hqc e he n hn1 hb hne
              · rw [List.mem_singleton] at hn1
                subst hn1
                simp only [List.mem_cons, List.mem_singleton, List.not_mem_nil, or_false] at he
                rcases he with rfl | rfl | rfl
                · exact ho.trans me.Id _ _ _ (hsame _ _ hba hbc1) (hsame _ _ hbc1 hxb) hac hcx
                · exact ho.trans me.Id _ _ _ (hsame _ _ hbb hbc1) (hsame _ _ hbc1 hxb) hbc hcx
                · exact hcx
          · have hev := Add_evict closer t x c l hl (by rw [hslot]; exact hnp)
              (by rw [hslot]; simp) (by rw [hslot]; rfl) hc
            rw [hev] at h
            cases h
            rw [hslot]
            simp only [List.set_cons_succ, List.set_cons_zero]
            have hperm := sortSlot_perm closer t.localNode.Id [a, b, x] (by simp)
            rw [hi.loc] at hc
            have hmem : ∀ e ∈ sortSlot closer t.localNode.Id [a, b, x],
                e = a ∨ e = b ∨ e = x := by
              intro e he
              simpa using hperm.mem_iff.mp he
            refine ⟨?_, ?_, ?_⟩
            · intro e he
              simp only [setSlot_rows_same] at he
              rcases hmem e he with rfl | rfl | rfl
              · exact List.mem_append_left _ (hqa _ (by simp))
              · exact List.mem_append_left _ (hqa _ (by simp))
              · simp
            · intro hl3
              simp only [setSlot_rows_same] at hl3
              rw [hperm.length_eq] at hl3
              simp [SLOTSIZE] at hl3
            · intro e he n hn hb hne
              simp only [setSlot_rows_same] at he hne
              have hna : a.Id ≠ n.Id := hne a (hperm.mem_iff.mpr (by simp))
              have hnb : b.Id ≠ n.Id := hne b (hperm.mem_iff.mpr (by simp))
              have hnx : x.Id ≠ n.Id := hne x (hperm.mem_iff.mpr (by simp))
              have hn1 : n ∈ ns := by
                rcases List.mem_append.mp hn with hn1 | hn1
                · exact hn1
                · rw [List.mem_singleton] at hn1
                  exact absurd (by rw [hn1]) hnx
              have hcn : closer me.Id c.Id n.Id = true ∨ c.Id = n.Id := by
                by_cases hcid : c.Id = n.Id
                · exact Or.inr hcid
                · left
                  apply hqc c (by simp) n hn1 hb
                  intro y hy
                  simp only [List.mem_cons, List.mem_singleton, List.not_mem_nil,
                    or_false] at hy
                  rcases hy with rfl | rfl | rfl
                  · exact hna
                  · exact hnb
                  · exact hcid
              rcases hmem e he with rfl | rfl | rfl
              · rcases hcn with h1 | h1
                · exact ho.trans me.Id _ _ _ (hsame _ _ hba hbc1) (hsame _ _ hbc1 hb) hac h1
                · rw [← h1]; exact hac
              · rcases hcn with h1 | h1
                · exact ho.trans me.Id _ _ _ (hsame _ _ hbb hbc1) (hsame _ _ hbc1 hb) hbc h1
                · rw [← h1]; exact hbc
              · rcases hcn with h1 | h1
                · exact ho.trans me.Id _ _ _ (hsame _ _ hxb hbc1) (hsame _ _ hbc1 hb) hc h1
                · rw [← h1]; exact hc

theorem run_adds (closer : ID → ID → ID → Bool) (ho : SlotOrder closer) (me : Node)
    (ns : List Node) : ∀ (t0 : RoutingTable) (pre : List Node), Inv me t0 →
    Sorted closer t0 →
    (∀ (l : Fin DIGITS) (d : Digit), d ≠ me.Id.get l → Retained closer me l d t0 pre) →
    ∃ t : RoutingTable, run closer t0 (ns.map Op.add) = some t ∧ Inv me t ∧
      Sorted closer t ∧
      ∀ (l : Fin DIGITS) (d : Digit), d ≠ me.Id.get l →
        Retained closer me l d t (pre ++ ns) := by
  induction ns with
  | nil =>
    intro t0 pre hi hs hq
    refine ⟨t0, rfl, hi, hs, ?_⟩
    rw [List.append_nil]
    exact hq
  | cons x ns ih =>
    intro t0 pre hi hs hq
    obtain ⟨r, hr, _⟩ := Add_outcome closer t0 x
    obtain ⟨t, ht, hit, hst, hqt⟩ := ih r.1 (pre ++ [x]) (Inv_Add closer me t0 hi x r hr)
      (Sorted_Add closer ho me t0 hi hs x r hr)
      (fun l d hd => Retained_Add closer ho me l d hd t0 pre hi hs (hq l d hd) x r hr)
    refine ⟨t, ?_, hit, hst, ?_⟩
    · simp only [List.map_cons, run, step, hr, Option.map_some', Option.some_bind]
      exact ht
    · rw [List.append_assoc] at hqt
      exact hqt

theorem Retained_length (closer : ID → ID → ID → Bool) (me : Node) (l : Fin DIGITS)
    (d : Digit) (hd : d ≠ me.Id.get l) (t : RoutingTable) (ns : List Node) (hi : Inv me t)
    (hq : Retained closer me l d t ns) :
    (t.rows l d).length = min SLOTSIZE (addedIds me l d ns).length := by
  have hnd := hi.nodup l d
  have hsub : (t.rows l d).map Node.Id ⊆ addedIds me l d ns := by
    intro id hid
    obtain ⟨e, he, rfl⟩ := List.mem_map.mp hid
    unfold addedIds
    rw [List.mem_dedup, List.mem_map]
    exact ⟨e, List.mem_filter.mpr ⟨hq.among e he,
      (belongsTo_iff _ _ _ _).mpr (hi.placed l d hd e he)⟩, rfl⟩
  have hle := (List.subperm_of_subset hnd hsub).length_le
  rw [List.length_map] at hle
  by_cases hlen : (t.rows l d).length < SLOTSIZE
  · have hsup : addedIds me l d ns ⊆ (t.rows l d).map Node.Id := by
      intro id hid
      unfold addedIds at hid
      rw [List.mem_dedup, List.mem_map] at hid
      obtain ⟨n, hn, rfl⟩ := hid
      rw [List.mem_filter] at hn
      obtain ⟨e, he, heq⟩ := hq.all hlen n hn.1 hn.2
      rw [← heq]
      exact List.mem_map_of_mem _ he
    have hge := (List.subperm_of_subset (List.nodup_dedup _) hsup).length_le
    rw [List.length_map] at hge
    change (addedIds me l d ns).length ≤ _ at hge
    omega
  · have hb := hi.bound l d
    omega

/-- C15: only the three closest are retained: a sequence of `Add` calls on a
fresh `NewRoutingTable(me)` returns, and then each slot that is not a slot of
the local node has `min(SLOTSIZE, k)` entries, where `k` is the number of
distinct IDs of the nodes added so far that belong to the slot; its entries
are added nodes that belong to the slot; and each of them is closer to the
local ID, under `closer(local.id, ., .)`, than every added node of the slot
whose ID the slot does not hold.  The comparison `closer` is any one that is
total and transitive on the IDs of one slot. -/
theorem Add_retains_closest (closer : ID → ID → ID → Bool) (ho : SlotOrder closer)
    (me : Node) (ns : List Node) :
    ∃ t : RoutingTable, run closer (NewRoutingTable me) (ns.map Op.add) = some t ∧
      ∀ (l : Fin DIGITS) (d : Digit), d ≠ me.Id.get l →
        (t.rows l d).length = min SLOTSIZE (addedIds me l d ns).length ∧
        (∀ e ∈ t.rows l d, e ∈ ns ∧ belongsTo me l d e = true) ∧
        ∀ e ∈ t.rows l d, ∀ n ∈ ns, belongsTo me l d n = true →
          (∀ x ∈ t.rows l d, x.Id ≠ n.Id) → closer me.Id e.Id n.Id = true := by
  obtain ⟨t, ht, hi, _, hq⟩ := run_adds closer ho me ns (NewRoutingTable me) [] (Inv_new me)
    (Sorted_new closer me) (fun l d hd => Retained_new closer me l d hd)
  refine ⟨t, ht, ?_⟩
  intro l d hd
  have hql := hq l d hd
  rw [List.nil_append] at hql
  refine ⟨Retained_length closer me l d hd t ns hi hql, ?_, hql.closest⟩
  intro e he
  exact ⟨hql.among e he, (belongsTo_iff _ _ _ _).mpr (hi.placed l d hd e he)⟩

theorem Add_retains_closest_witness :
    SlotOrder Closer ∧
    ∃ t : RoutingTable,
      run Closer (NewRoutingTable exLocal) ([exA, exB, exC, exN].map Op.add) = some t ∧
      ∀ (l : Fin DIGITS) (d : Digit), d ≠ exLocal.Id.get l →
        (t.rows l d).length = min SLOTSIZE (addedIds exLocal l d [exA, exB, exC, exN]).length ∧
        (∀ e ∈ t.rows l d, e ∈ [exA, exB, exC, exN] ∧ belongsTo exLocal l d e = true) ∧
        ∀ e ∈ t.rows l d, ∀ n ∈ [exA, exB, exC, exN], belongsTo exLocal l d n = true →
          (∀ x ∈ t.rows l d, x.Id ≠ n.Id) → Closer exLocal.Id e.Id n.Id = true :=
  ⟨SlotOrder_Closer, Add_retains_closest Closer SlotOrder_Closer exLocal [exA, exB, exC, exN]⟩

/-! ## The root of an ID -/

end Tapestry
